import Mathlib

/-!
# Formal model of the Trees interpreter

A shallow embedding, in Lean 4, of the parts of the Trees repository
(a 2-D visual-language interpreter written in Rust) that the verified
properties below are about:

* `IR` — the intermediate bytecode codec (`src/intermed_repr.rs`):
  `Block::to_intermed_repr` and `Block::from_intermed_repr`.
* `Ev` — the tree-walking evaluator (`src/structs/block.rs`,
  `src/structs/exec_env.rs`, `src/executor/predefined.rs`).
* `TL` — the 2-D grid parser (`trees-lang/src/compile.rs`):
  `SplitedCode`, `find_a_block`, `connect_blocks`.

Modelling conventions, used throughout:

* Rust `panic!` / `unwrap` / `expect` / arithmetic aborts are modelled by
  `Option`: a function that can panic returns `Option α` and `none` means
  the Rust code panics.
* Rust `Vec<T>` used as a stack (push/pop at the end) is modelled as a
  Lean `List` whose *head* is the *end* (top) of the vector, unless said
  otherwise at the definition site.
* Machine integers are modelled as `Nat`/`Int`; where Rust wraps
  (release-profile `usize` subtraction, `as u8` casts) the wrap is made
  explicit with `% 2 ^ w`.
* Byte strings (`Vec<u8>`, and the bytes of a Rust `String`) are
  `List Nat`, each entry `< 256` where it matters.
-/

/-- `2 ^ 64`, the modulus of Rust's 64-bit `usize`. -/
def USIZE : Nat := 2 ^ 64

/-- Wrapping `usize` subtraction of 1 (`x.wrapping_sub(1)`, the
release-profile behaviour of `x - 1`). -/
def usizeSub1 (x : Nat) : Nat := (x + (USIZE - 1)) % USIZE

namespace IR

/-- `QuoteStyle` from `src/structs.rs` (the variant used by
`src/intermed_repr.rs`): no quoting, quote, or closure. -/
inductive QuoteStyle where
  | none
  | quote
  | closure
deriving DecidableEq, Repr

/-- The persistable call tree `Block` from `src/structs.rs` as used by
`src/intermed_repr.rs`: a procedure name (modelled as its UTF-8 bytes),
a quote style, and an ordered list of `(expand, child)` pairs. -/
inductive Block where
  | mk (q : QuoteStyle) (name : List Nat) (children : List (Bool × Block))
deriving Repr

/-- The quote style of a block. -/
def Block.quote : Block → QuoteStyle
  | .mk q _ _ => q

/-- The procedure name (UTF-8 bytes) of a block. -/
def Block.proc_name : Block → List Nat
  | .mk _ n _ => n

/-- The `(expand, child)` list of a block. -/
def Block.args : Block → List (Bool × Block)
  | .mk _ _ a => a

/-- Number of nodes of a block tree (the number of loop iterations of
`to_intermed_repr`'s explicit stack loop). -/
def sizeB : Block → Nat
  | .mk _ _ args => 1 + sizeArgs args
where
  /-- Total node count of a `(expand, child)` list. -/
  sizeArgs : List (Bool × Block) → Nat
  | [] => 0
  | a :: rest => sizeB a.2 + sizeArgs rest

/-- Structural equality test on blocks (Rust `#[derive(PartialEq)]`). -/
def beqB : Block → Block → Bool
  | .mk q n a, .mk q' n' a' => q == q' && n == n' && beqArgs a a'
where
  /-- Structural equality test on `(expand, child)` lists. -/
  beqArgs : List (Bool × Block) → List (Bool × Block) → Bool
  | [], [] => true
  | x :: xs, y :: ys => x.1 == y.1 && beqB x.2 y.2 && beqArgs xs ys
  | [], _ :: _ => false
  | _ :: _, [] => false

mutual

theorem beqB_iff : ∀ (a b : Block), beqB a b = true ↔ a = b
  | .mk q n args, .mk q' n' args' => by
    simp only [beqB, Bool.and_eq_true, beq_iff_eq, Block.mk.injEq]
    rw [beqArgs_iff args args']
    tauto

theorem beqArgs_iff : ∀ (xs ys : List (Bool × Block)), beqB.beqArgs xs ys = true ↔ xs = ys
  | [], [] => by simp [beqB.beqArgs]
  | [], _ :: _ => by simp [beqB.beqArgs]
  | _ :: _, [] => by simp [beqB.beqArgs]
  | x :: xs, y :: ys => by
    simp only [beqB.beqArgs, Bool.and_eq_true, beq_iff_eq, List.cons.injEq]
    rw [beqB_iff x.2 y.2, beqArgs_iff xs ys]
    constructor
    · rintro ⟨⟨h1, h2⟩, h3⟩
      exact ⟨Prod.ext h1 h2, h3⟩
    · rintro ⟨h, h3⟩
      cases x; cases y
      simp_all

end

instance : DecidableEq Block := fun a b => decidable_of_iff _ (beqB_iff a b)

/-! ## Encoding (`Block::to_intermed_repr`) -/

/-- The four big-endian bytes of a `u32` (`u32::to_be_bytes`). -/
def u32be (n : Nat) : List Nat :=
  [n / 2 ^ 24 % 256, n / 2 ^ 16 % 256, n / 2 ^ 8 % 256, n % 256]

/-- The byte written for each `QuoteStyle` (`BlockType as u8`). -/
def blockTypeByte : QuoteStyle → Nat
  | .none => 1
  | .quote => 2
  | .closure => 3

/-- The bytes one stack iteration of `to_intermed_repr` appends for the
popped node: block-kind byte, name length (`u32` big-endian), name bytes,
child count (`args.len() as u8`, which **truncates mod 256**), and one
expand-flag byte per child. -/
def encHeader (b : Block) : List Nat :=
  blockTypeByte b.quote ::
    (u32be b.proc_name.length ++ b.proc_name ++
      ([b.args.length % 256] ++ b.args.map fun a => if a.1 then 1 else 0))

/-- The stack loop of `to_intermed_repr`.  The Rust loop pops a node,
emits its header, and pushes its children in reverse order (so the first
child is popped next); one recursive call here is one loop iteration, the
argument list being the stack read top-first.  `u32::try_from(len).unwrap()`
panics (`none`) when a name is `2 ^ 32` bytes or longer.  The fuel is one
unit per popped node; `to_intermed_repr` passes the tree's node count, so
the `0` case is never hit there. -/
def encodeLoop : Nat → List Block → Option (List Nat)
  | _, [] => some []
  | 0, _ :: _ => none
  | fuel + 1, b :: rest =>
    if b.proc_name.length < 2 ^ 32 then
      (encodeLoop fuel (b.args.map Prod.snd ++ rest)).map fun tail =>
        encHeader b ++ tail
    else none

/-- `Block::to_intermed_repr` (src/intermed_repr.rs:43-81): version byte
`0x01`, header length `5` as a big-endian `u32`, then the depth-first
leftmost-first node stream produced by the stack loop. -/
def to_intermed_repr (b : Block) : Option (List Nat) :=
  (encodeLoop (sizeB b) [b]).map fun body => 1 :: (u32be 5 ++ body)

/-! ## Decoding (`Block::from_intermed_repr`) -/

/-- `code.next().expect(..)`: take one byte or panic on a drained
iterator. -/
def readU8 : List Nat → Option (Nat × List Nat)
  | [] => none
  | b :: r => some (b, r)

/-- `Block::read_u32`: four bytes, big-endian, each read with
`expect`. -/
def readU32 (code : List Nat) : Option (Nat × List Nat) := do
  let (b1, c1) ← readU8 code
  let (b2, c2) ← readU8 c1
  let (b3, c3) ← readU8 c2
  let (b4, c4) ← readU8 c3
  pure (((b1 * 256 + b2) * 256 + b3) * 256 + b4, c4)

/-- Decode a block-kind byte; any value other than 1, 2, 3 panics
(`panic!("Unknown BlockType ..")`). -/
def decodeBlockType (k : Nat) : Option QuoteStyle :=
  if k = 1 then some .none
  else if k = 2 then some .quote
  else if k = 3 then some .closure
  else none

/-- Read `n` expand-flag bytes (1 = expand, 0 = normal, anything else
panics, end of stream panics via `expect`). -/
def readFlags : Nat → List Nat → Option (List Bool × List Nat)
  | 0, code => some ([], code)
  | n + 1, code => do
    let (b, c) ← readU8 code
    let f ← if b = 1 then some true else if b = 0 then some false else none
    let (fs, c') ← readFlags n c
    pure (f :: fs, c')

/-- The node-header reads shared by the root block and the in-loop child
blocks of `from_intermed_repr`: kind byte, name length, name bytes
(`Block::read_string` uses `take(len).collect()`, which silently collects
*up to* `len` bytes; the `String::from_utf8` validity check is not
modelled, names stay byte lists), child count, expand flags.  Returns the
quote style, name, child count, flags, and the remaining stream. -/
def decodeNodeHeader (code : List Nat) :
    Option (QuoteStyle × List Nat × Nat × List Bool × List Nat) := do
  let (k, c1) ← readU8 code
  let q ← decodeBlockType k
  let (nlen, c2) ← readU32 c1
  let name := c2.take nlen
  let c3 := c2.drop nlen
  let (cnt, c4) ← readU8 c3
  let (flags, c5) ← readFlags cnt c4
  pure (q, name, cnt, flags, c5)

/-- Append one decoded `(expand, child)` pair to a parent's argument
list (`upper_block.args.push(..)`). -/
def pushArg (parent : Block) (fl : Bool) (child : Block) : Block :=
  match parent with
  | .mk q n args => .mk q n (args ++ [(fl, child)])

/-- The `while let Some(..) = stack.pop()` loop of `from_intermed_repr`.

* `stack` is the `Vec<(Block, usize)>` of partially rebuilt nodes with
  their remaining-child counts, top of the vector first.
* `ats` is the `arg_types` vector.  Rust appends each node's flags
  *reversed* and pops *from the end*; the double reversal makes it, as a
  head-first list, a plain in-order prepend with the next flag to pop at
  the head, which is how it is modelled here.
* A node with remaining count 0 is attached to the node below it on the
  stack, popping its expand flag (`arg_types.pop().unwrap()`, panic when
  empty); with an empty stack below, it is the finished root and any
  remaining bytes are ignored, exactly as in Rust.
* Otherwise one child header is read; a childless child is attached to
  the re-pushed parent immediately, a child with children is pushed.

Each iteration either consumes at least six bytes or shrinks the stack,
so the loop runs at most `code.length + 1` iterations — the caller passes
that as fuel and the fuel-exhaustion case is unreachable. -/
def decodeLoop : Nat → List (Block × Nat) → List Bool → List Nat → Option Block
  | _, [], _, _ => none
  | 0, _ :: _, _, _ => none
  | fuel + 1, (b, 0) :: s, ats, code =>
    match s with
    | [] => some b
    | (ub, m) :: s' =>
      match ats with
      | [] => none
      | fl :: ats' => decodeLoop fuel ((pushArg ub fl b, m) :: s') ats' code
  | fuel + 1, (b, k + 1) :: s, ats, code =>
    match decodeNodeHeader code with
    | none => none
    | some (q, name, cnt, flags, code') =>
      if cnt = 0 then
        match ats with
        | [] => none
        | fl :: ats' =>
          decodeLoop fuel ((pushArg b fl (Block.mk q name []), k) :: s) ats' code'
      else
        decodeLoop fuel ((Block.mk q name [], cnt) :: (b, k) :: s)
          (flags ++ ats) code'

/-- `Block::from_intermed_repr` (src/intermed_repr.rs:84-181): read the
version byte and the header length, read the root node's header, then
rebuild the tree with the explicit stack loop.

Note the Rust line `let _remain_header = code.take((header_len - 5) as
usize);` only *builds* a lazy `Take` adapter and never iterates it, so no
reserved header byte is consumed — decoding continues at the byte right
after the five header bytes regardless of the header-length field. -/
def from_intermed_repr (code : List Nat) : Option Block := do
  let (_version, c1) ← readU8 code
  let (_header_len, c2) ← readU32 c1
  let (q, name, cnt, flags, c3) ← decodeNodeHeader c2
  decodeLoop (code.length + 1) [(Block.mk q name [], cnt)] flags c3

/-! ## Reference descriptions used by the round-trip proof -/

/-- `b` with the pairs `cs` appended to its argument list. -/
def appendArgs (b : Block) (cs : List (Bool × Block)) : Block :=
  match b with
  | .mk q n args => .mk q n (args ++ cs)

/-- The recursive (depth-first, leftmost-first) description of the byte
stream the encoder's stack loop emits for a list of `(expand, child)`
pairs: each child's header followed by the stream of its own children. -/
def encList : List (Bool × Block) → List Nat
  | [] => []
  | (fl, .mk q n cargs) :: rest =>
    (encHeader (.mk q n cargs) ++ encList cargs) ++ encList ((fl, .mk q n cargs) :: rest).tail
termination_by cs => sizeB.sizeArgs cs
decreasing_by
  all_goals simp [sizeB.sizeArgs, sizeB] <;> omega

/-- The byte stream the encoder's stack loop emits for a whole stack. -/
def encStack : List Block → List Nat
  | [] => []
  | b :: rest => (encHeader b ++ encList b.args) ++ encStack rest

/-- Total node count of a stack of blocks. -/
def sizeStack : List Block → Nat
  | [] => 0
  | b :: rest => sizeB b + sizeStack rest

/-- The number of iterations the decoder's stack loop takes to consume
the encoded stream of a child list and attach the completed children one
level up: one final attach iteration, plus, per child, one header-reading
iteration and (for children that themselves have children) the iterations
of their own subtree. -/
def stepsL : List (Bool × Block) → Nat
  | [] => 1
  | (_, .mk _ _ []) :: rest => 1 + stepsL rest
  | (fl, .mk q n (a :: cargs)) :: rest =>
    1 + stepsL (a :: cargs) + stepsL ((fl, .mk q n (a :: cargs)) :: rest).tail
termination_by cs => sizeB.sizeArgs cs
decreasing_by
  all_goals simp [sizeB.sizeArgs, sizeB] <;> omega

/-- The encodable trees: every node has at most 255 children (the
`args.len() as u8` cast does not truncate) and a name of fewer than
`2 ^ 32` bytes (`u32::try_from(..).unwrap()` does not panic). -/
def wfB : Block → Bool
  | .mk _ n args => decide (n.length < 2 ^ 32) && decide (args.length ≤ 255) && wfArgs args
where
  /-- `wfB` for every child of a `(expand, child)` list. -/
  wfArgs : List (Bool × Block) → Bool
  | [] => true
  | a :: rest => wfB a.2 && wfArgs rest

theorem wfB_name {q : QuoteStyle} {n : List Nat} {args : List (Bool × Block)}
    (h : wfB (.mk q n args) = true) : n.length < 2 ^ 32 := by
  simp only [wfB, Bool.and_eq_true, decide_eq_true_eq] at h; exact h.1.1

theorem wfB_count {q : QuoteStyle} {n : List Nat} {args : List (Bool × Block)}
    (h : wfB (.mk q n args) = true) : args.length ≤ 255 := by
  simp only [wfB, Bool.and_eq_true, decide_eq_true_eq] at h; exact h.1.2

theorem wfB_children {q : QuoteStyle} {n : List Nat} {args : List (Bool × Block)}
    (h : wfB (.mk q n args) = true) : ∀ a ∈ args, wfB a.2 = true := by
  simp only [wfB, Bool.and_eq_true, decide_eq_true_eq] at h
  obtain ⟨-, h⟩ := h
  induction args with
  | nil => simp
  | cons a rest ih =>
    simp only [wfB.wfArgs, Bool.and_eq_true] at h
    intro b hb
    rcases List.mem_cons.mp hb with rfl | hb
    · exact h.1
    · exact ih h.2 b hb

theorem sizeB_pos (b : Block) : 1 ≤ sizeB b := by
  cases b; simp [sizeB]

theorem appendArgs_nil (b : Block) : appendArgs b [] = b := by
  cases b; simp [appendArgs]

theorem appendArgs_left_nil (q : QuoteStyle) (n : List Nat) (cs : List (Bool × Block)) :
    appendArgs (.mk q n []) cs = .mk q n cs := by
  simp [appendArgs]

theorem appendArgs_push (b : Block) (fl : Bool) (c : Block) (cs : List (Bool × Block)) :
    appendArgs (pushArg b fl c) cs = appendArgs b ((fl, c) :: cs) := by
  cases b; simp [appendArgs, pushArg]

theorem encStack_append (xs ys : List Block) :
    encStack (xs ++ ys) = encStack xs ++ encStack ys := by
  induction xs with
  | nil => simp [encStack]
  | cons b rest ih => simp [encStack, ih]

theorem encStack_map_snd (args : List (Bool × Block)) :
    encStack (args.map Prod.snd) = encList args := by
  induction args with
  | nil => simp [encStack, encList]
  | cons a rest ih =>
    obtain ⟨fl, q, n, cargs⟩ := a
    simp [encStack, encList, ih, Block.args]

theorem sizeStack_append (xs ys : List Block) :
    sizeStack (xs ++ ys) = sizeStack xs + sizeStack ys := by
  induction xs with
  | nil => simp [sizeStack]
  | cons b rest ih => simp [sizeStack, ih]; omega

theorem sizeStack_map_snd (args : List (Bool × Block)) :
    sizeStack (args.map Prod.snd) = sizeB.sizeArgs args := by
  induction args with
  | nil => simp [sizeStack, sizeB.sizeArgs]
  | cons a rest ih => simp [sizeStack, sizeB.sizeArgs, ih]

/-- The encoder's stack loop, run with enough fuel on a stack of
well-formed blocks, emits exactly the depth-first reference stream. -/
theorem encodeLoop_eq : ∀ (fuel : Nat) (stack : List Block),
    sizeStack stack ≤ fuel → (∀ b ∈ stack, wfB b = true) →
    encodeLoop fuel stack = some (encStack stack) := by
  intro fuel
  induction fuel with
  | zero =>
    intro stack h _
    match stack with
    | [] => rfl
    | b :: rest =>
      exfalso
      have := sizeB_pos b
      simp [sizeStack] at h
      omega
  | succ f ih =>
    intro stack h hwf
    match stack with
    | [] => rfl
    | b :: rest =>
      obtain ⟨q, n, args⟩ := b
      have hb := hwf _ (List.mem_cons_self _ _)
      have hname : (Block.mk q n args).proc_name.length < 2 ^ 32 := wfB_name hb
      rw [encodeLoop, if_pos hname, ih]
      · simp [encStack, Block.args, encStack_append, encStack_map_snd]
      · have h1 : sizeStack ((Block.mk q n args).args.map Prod.snd ++ rest)
            = sizeB.sizeArgs args + sizeStack rest := by
          rw [sizeStack_append, sizeStack_map_snd]; rfl
        have h2 : sizeStack (Block.mk q n args :: rest)
            = (1 + sizeB.sizeArgs args) + sizeStack rest := by
          simp [sizeStack, sizeB]
        omega
      · intro x hx
        rcases List.mem_append.mp hx with hx | hx
        · obtain ⟨a, ha, rfl⟩ := List.mem_map.mp hx
          exact wfB_children hb a ha
        · exact hwf _ (List.mem_cons_of_mem _ hx)

theorem readU32_u32be (v : Nat) (t : List Nat) (h : v < 2 ^ 32) :
    readU32 (u32be v ++ t) = some (v, t) := by
  simp only [u32be, List.cons_append, List.nil_append, readU32, readU8, Option.bind_eq_bind,
    Option.some_bind]
  have hv : ((v / 2 ^ 24 % 256 * 256 + v / 2 ^ 16 % 256) * 256 + v / 2 ^ 8 % 256) * 256 + v % 256
      = v := by omega
  rw [hv]
  rfl

theorem decodeBlockType_blockTypeByte (q : QuoteStyle) :
    decodeBlockType (blockTypeByte q) = some q := by
  cases q <;> rfl

theorem readFlags_flags (args : List (Bool × Block)) (t : List Nat) :
    readFlags args.length ((args.map fun a => if a.1 then 1 else 0) ++ t) =
      some (args.map Prod.fst, t) := by
  induction args with
  | nil => rfl
  | cons a rest ih =>
    cases ha : a.1 <;>
      simp [readFlags, readU8, ha, ih, List.length_cons]

/-- Reading one node header back from its own encoding (for a node with
at most 255 children and a name shorter than `2 ^ 32` bytes). -/
theorem decodeNodeHeader_encHeader (q : QuoteStyle) (n : List Nat)
    (args : List (Bool × Block)) (t : List Nat)
    (hn : n.length < 2 ^ 32) (hc : args.length ≤ 255) :
    decodeNodeHeader (encHeader (.mk q n args) ++ t) =
      some (q, n, args.length, args.map Prod.fst, t) := by
  have hmod : args.length % 256 = args.length := Nat.mod_eq_of_lt (by omega)
  rw [decodeNodeHeader]
  simp only [encHeader, Block.quote, Block.proc_name, Block.args, List.cons_append,
    List.append_assoc]
  rw [readU8]
  simp only [Option.bind_eq_bind, Option.some_bind]
  rw [decodeBlockType_blockTypeByte]
  simp only [Option.some_bind]
  rw [readU32_u32be _ _ hn]
  simp only [Option.some_bind]
  rw [List.take_left, List.drop_left]
  simp only [List.cons_append, readU8, Option.some_bind]
  rw [hmod]
  simp only [List.nil_append]
  rw [readFlags_flags]
  rfl

theorem encHeader_length (q : QuoteStyle) (n : List Nat) (args : List (Bool × Block)) :
    (encHeader (.mk q n args)).length = 6 + n.length + args.length := by
  simp [encHeader, u32be, Block.quote, Block.proc_name, Block.args]
  omega

theorem stepsL_le : ∀ cs : List (Bool × Block), stepsL cs ≤ (encList cs).length + 1
  | [] => by simp [stepsL, encList]
  | (fl, .mk q n []) :: rest => by
    have ih := stepsL_le rest
    have hl := encHeader_length q n ([] : List (Bool × Block))
    simp only [stepsL, encList, List.tail_cons, List.length_append] at *
    omega
  | (fl, .mk q n (a :: cargs)) :: rest => by
    have ih1 := stepsL_le (a :: cargs)
    have ih2 := stepsL_le rest
    have hl := encHeader_length q n (a :: cargs)
    simp only [stepsL, encList, List.tail_cons, List.length_append] at *
    omega
termination_by cs => sizeB.sizeArgs cs
decreasing_by
  all_goals simp [sizeB.sizeArgs, sizeB] <;> omega

/-- Main decoder invariant: with the children of some node still to be
read (the top stack entry `(b0, cs.length)`), the loop consumes exactly
the encoded stream of those children plus the expand flag `f` reserved
for the completed node, and attaches the finished node one level up.
The fuel spent is exactly `stepsL cs`. -/
theorem decodeLoop_encList : ∀ (cs : List (Bool × Block)),
    (∀ a ∈ cs, wfB a.2 = true) →
    ∀ (fuel : Nat) (b0 parent : Block) (k : Nat) (s : List (Block × Nat))
      (f : Bool) (ats : List Bool) (rest : List Nat),
    decodeLoop (stepsL cs + fuel) ((b0, cs.length) :: (parent, k) :: s)
        (cs.map Prod.fst ++ f :: ats) (encList cs ++ rest)
      = decodeLoop fuel ((pushArg parent f (appendArgs b0 cs), k) :: s) ats rest
  | [], _, fuel, b0, parent, k, s, f, ats, rest => by
    have h1 : stepsL ([] : List (Bool × Block)) + fuel = fuel + 1 := by
      simp [stepsL]; omega
    rw [h1]
    simp only [List.length_nil, List.map_nil, List.nil_append, encList]
    rw [decodeLoop, appendArgs_nil]
  | (fl, .mk cq cn []) :: cs', hwf, fuel, b0, parent, k, s, f, ats, rest => by
    have hc : wfB (.mk cq cn []) = true := hwf _ (List.mem_cons_self _ _)
    have hwf' : ∀ a ∈ cs', wfB a.2 = true := fun a ha =>
      hwf a (List.mem_cons_of_mem _ ha)
    have h1 : stepsL ((fl, Block.mk cq cn []) :: cs') + fuel
        = (stepsL cs' + fuel) + 1 := by
      simp [stepsL]; omega
    have henc : encList ((fl, Block.mk cq cn []) :: cs') ++ rest
        = encHeader (.mk cq cn []) ++ (encList cs' ++ rest) := by
      simp [encList]
    rw [h1, henc]
    simp only [List.length_cons, List.map_cons, List.cons_append]
    rw [decodeLoop]
    rw [decodeNodeHeader_encHeader cq cn [] _ (wfB_name hc) (wfB_count hc)]
    have step := decodeLoop_encList cs' hwf' fuel (pushArg b0 fl (.mk cq cn []))
      parent k s f ats rest
    rw [appendArgs_push] at step
    simpa using step
  | (fl, .mk cq cn (a :: as)) :: cs', hwf, fuel, b0, parent, k, s, f, ats, rest => by
    have hc : wfB (.mk cq cn (a :: as)) = true := hwf _ (List.mem_cons_self _ _)
    have hwf' : ∀ a ∈ cs', wfB a.2 = true := fun a ha =>
      hwf a (List.mem_cons_of_mem _ ha)
    have h1 : stepsL ((fl, Block.mk cq cn (a :: as)) :: cs') + fuel
        = (stepsL (a :: as) + (stepsL cs' + fuel)) + 1 := by
      simp [stepsL]; omega
    have henc : encList ((fl, Block.mk cq cn (a :: as)) :: cs') ++ rest
        = encHeader (.mk cq cn (a :: as)) ++ (encList (a :: as) ++ (encList cs' ++ rest)) := by
      simp [encList]
    rw [h1, henc]
    simp only [List.length_cons, List.map_cons, List.cons_append]
    rw [decodeLoop]
    rw [decodeNodeHeader_encHeader cq cn (a :: as) _ (wfB_name hc) (wfB_count hc)]
    have step1 := decodeLoop_encList (a :: as) (wfB_children hc) (stepsL cs' + fuel)
      (.mk cq cn []) b0 cs'.length ((parent, k) :: s) fl (cs'.map Prod.fst ++ f :: ats)
      (encList cs' ++ rest)
    rw [appendArgs_left_nil] at step1
    have step2 := decodeLoop_encList cs' hwf' fuel
      (pushArg b0 fl (.mk cq cn (a :: as))) parent k s f ats rest
    rw [appendArgs_push] at step2
    simp only [List.length_cons, List.map_cons, List.cons_append] at step1 ⊢
    rw [if_neg (Nat.succ_ne_zero _), step1, step2]
termination_by cs => sizeB.sizeArgs cs
decreasing_by
  all_goals simp [sizeB.sizeArgs, sizeB] <;> omega

/-- The decoder invariant at the bottom of the stack: the remaining
children of the root are consumed and the finished root is returned (any
trailing bytes are ignored, as in the Rust loop). -/
theorem decodeLoop_encList_root : ∀ (cs : List (Bool × Block)),
    (∀ a ∈ cs, wfB a.2 = true) →
    ∀ (fuel : Nat) (b0 : Block) (ats : List Bool) (code : List Nat),
    decodeLoop (stepsL cs + fuel) [(b0, cs.length)] (cs.map Prod.fst ++ ats)
        (encList cs ++ code)
      = some (appendArgs b0 cs)
  | [], _, fuel, b0, ats, code => by
    have h1 : stepsL ([] : List (Bool × Block)) + fuel = fuel + 1 := by
      simp [stepsL]; omega
    rw [h1]
    simp only [List.length_nil, List.map_nil, List.nil_append, encList]
    rw [decodeLoop, appendArgs_nil]
  | (fl, .mk cq cn []) :: cs', hwf, fuel, b0, ats, code => by
    have hc : wfB (.mk cq cn []) = true := hwf _ (List.mem_cons_self _ _)
    have hwf' : ∀ a ∈ cs', wfB a.2 = true := fun a ha =>
      hwf a (List.mem_cons_of_mem _ ha)
    have h1 : stepsL ((fl, Block.mk cq cn []) :: cs') + fuel
        = (stepsL cs' + fuel) + 1 := by
      simp [stepsL]; omega
    have henc : encList ((fl, Block.mk cq cn []) :: cs') ++ code
        = encHeader (.mk cq cn []) ++ (encList cs' ++ code) := by
      simp [encList]
    rw [h1, henc]
    simp only [List.length_cons, List.map_cons, List.cons_append]
    rw [decodeLoop]
    rw [decodeNodeHeader_encHeader cq cn [] _ (wfB_name hc) (wfB_count hc)]
    have step := decodeLoop_encList_root cs' hwf' fuel (pushArg b0 fl (.mk cq cn [])) ats code
    rw [appendArgs_push] at step
    simpa using step
  | (fl, .mk cq cn (a :: as)) :: cs', hwf, fuel, b0, ats, code => by
    have hc : wfB (.mk cq cn (a :: as)) = true := hwf _ (List.mem_cons_self _ _)
    have hwf' : ∀ a ∈ cs', wfB a.2 = true := fun a ha =>
      hwf a (List.mem_cons_of_mem _ ha)
    have h1 : stepsL ((fl, Block.mk cq cn (a :: as)) :: cs') + fuel
        = (stepsL (a :: as) + (stepsL cs' + fuel)) + 1 := by
      simp [stepsL]; omega
    have henc : encList ((fl, Block.mk cq cn (a :: as)) :: cs') ++ code
        = encHeader (.mk cq cn (a :: as)) ++ (encList (a :: as) ++ (encList cs' ++ code)) := by
      simp [encList]
    rw [h1, henc]
    simp only [List.length_cons, List.map_cons, List.cons_append]
    rw [decodeLoop]
    rw [decodeNodeHeader_encHeader cq cn (a :: as) _ (wfB_name hc) (wfB_count hc)]
    have step1 := decodeLoop_encList (a :: as) (wfB_children hc) (stepsL cs' + fuel)
      (.mk cq cn []) b0 cs'.length [] fl (cs'.map Prod.fst ++ ats)
      (encList cs' ++ code)
    rw [appendArgs_left_nil] at step1
    have step2 := decodeLoop_encList_root cs' hwf' fuel
      (pushArg b0 fl (.mk cq cn (a :: as))) ats code
    rw [appendArgs_push] at step2
    simp only [List.length_cons, List.map_cons, List.cons_append] at step1 ⊢
    rw [if_neg (Nat.succ_ne_zero _), step1, step2]
termination_by cs => sizeB.sizeArgs cs
decreasing_by
  all_goals simp [sizeB.sizeArgs, sizeB] <;> omega

/-! ## The C1 and C2 claim theorems -/

/-- **C1** (amended): bytecode round trip for every *encodable* call
tree.  If every node of `t` has at most 255 children and a proc-name
shorter than `2 ^ 32` bytes, then
`from_intermed_repr (to_intermed_repr t) = t`, with the encoding listing
nodes depth-first leftmost-child-first.  Over *all* trees the claim
fails — see `intermed_repr_roundtrip_cx`. -/
theorem intermed_repr_roundtrip (t : Block) (h : wfB t = true) :
    (to_intermed_repr t).bind from_intermed_repr = some t := by
  obtain ⟨q, n, args⟩ := t
  have henc : encodeLoop (sizeB (Block.mk q n args)) [Block.mk q n args]
      = some (encStack [Block.mk q n args]) := by
    apply encodeLoop_eq
    · simp [sizeStack]
    · intro b hb
      simp only [List.mem_singleton] at hb
      subst hb
      exact h
  rw [to_intermed_repr, henc]
  simp only [encStack, Block.args, List.append_nil, Option.map_some']
  rw [Option.some_bind, from_intermed_repr]
  rw [readU8]
  simp only [Option.bind_eq_bind, Option.some_bind]
  rw [readU32_u32be 5 _ (by norm_num)]
  simp only [Option.some_bind]
  rw [decodeNodeHeader_encHeader q n args _ (wfB_name h) (wfB_count h)]
  simp only [Option.some_bind]
  set L := (1 :: (u32be 5 ++ (encHeader (Block.mk q n args) ++ encList args))).length with hLdef
  have hle : stepsL args ≤ L + 1 := by
    have h1 := stepsL_le args
    have h2 : (encList args).length ≤ L := by
      rw [hLdef]
      simp only [List.length_cons, List.length_append]
      omega
    omega
  have hfuel : L + 1 = stepsL args + (L + 1 - stepsL args) :=
    (Nat.add_sub_cancel' hle).symm
  rw [hfuel]
  have hroot := decodeLoop_encList_root args (wfB_children h)
    (L + 1 - stepsL args) (Block.mk q n []) [] []
  simp only [List.append_nil, appendArgs_left_nil] at hroot
  exact hroot

/-- Witness for `intermed_repr_roundtrip`: the nested call tree of the
repository's own `nest_block_to_intermediate` unit test round-trips. -/
theorem intermed_repr_roundtrip_witness :
    wfB (.mk .none [97]
        [(true, .mk .none [98] [(false, .mk .quote [99] [])]),
         (false, .mk .closure [100] [])]) = true
    ∧ (to_intermed_repr (.mk .none [97]
          [(true, .mk .none [98] [(false, .mk .quote [99] [])]),
           (false, .mk .closure [100] [])])).bind from_intermed_repr
      = some (.mk .none [97]
          [(true, .mk .none [98] [(false, .mk .quote [99] [])]),
           (false, .mk .closure [100] [])]) :=
  ⟨by decide, intermed_repr_roundtrip _ (by decide)⟩

/-- The encoder's per-node name-length check: a node whose name has
`2 ^ 32` bytes or more makes the loop panic. -/
theorem encodeLoop_name_too_long (fuel : Nat) (q : QuoteStyle) (n : List Nat)
    (args : List (Bool × Block)) (rest : List Block)
    (h : ¬ n.length < 2 ^ 32) :
    encodeLoop (fuel + 1) (Block.mk q n args :: rest) = none := by
  rw [encodeLoop, if_neg (by simpa [Block.proc_name] using h)]

set_option maxRecDepth 100000 in
/-- **C1** counterexample: over *all* call trees the round-trip claim
fails.  (i) A single node whose name is `2 ^ 32` bytes long makes
`to_intermed_repr` panic (`u32::try_from(name.len()).unwrap()`);
(ii) a root with 256 childless children is encoded with child-count byte
`256 % 256 = 0` (`args.len() as u8`), so decoding its encoding returns
the childless root, not the original tree. -/
theorem intermed_repr_roundtrip_cx :
    (to_intermed_repr (.mk .none (List.replicate (2 ^ 32) 97) [])).bind
        from_intermed_repr = none
    ∧ (to_intermed_repr (.mk .none []
          (List.replicate 256 (false, Block.mk .none [] [])))).bind
        from_intermed_repr
      ≠ some (.mk .none [] (List.replicate 256 (false, Block.mk .none [] []))) := by
  constructor
  · have hs : sizeB (Block.mk .none (List.replicate (2 ^ 32) 97) []) = 1 := by
      simp [sizeB, sizeB.sizeArgs]
    have hname :
        ¬ (List.replicate (2 ^ 32) 97).length < 2 ^ 32 := by
      rw [List.length_replicate]
      exact Nat.lt_irrefl _
    have hb := encodeLoop_name_too_long 0 .none (List.replicate (2 ^ 32) 97) [] [] hname
    rw [Nat.zero_add] at hb
    rw [to_intermed_repr, hs, hb]
    rfl
  · decide

/-- **C2** (refuted by the code; the spec is the intent): reserved header
bytes are *not* skipped on decode.  `from_intermed_repr` evaluates
`code.take((header_len - 5) as usize)` into an unused binding; `take` on
an iterator is lazy and the adapter is never iterated, so nothing is
consumed.  On the stream with header-length 6 and one reserved byte `0`
the decoder reads the reserved byte as the first block-kind byte and
panics (`none`); the same stream with header-length 5 and the reserved
byte removed decodes to the childless empty-named block, which is what
the claim requires of the first stream as well. -/
theorem from_intermed_repr_reserved_bytes_not_skipped :
    from_intermed_repr [1, 0, 0, 0, 6, 0, 1, 0, 0, 0, 0, 0] = none
    ∧ from_intermed_repr [1, 0, 0, 0, 5, 1, 0, 0, 0, 0, 0]
      = some (.mk .none [] []) := by decide

end IR

-- The two concrete vectors of the repository's own unit tests
-- (`one_block_to_intermediate` / `intermediate_to_nest_block`), as sanity
-- anchors for the embedding.
example :
    IR.to_intermed_repr (.mk .none [97, 97, 97, 97] []) =
      some [1, 0, 0, 0, 5, 1, 0, 0, 0, 4, 97, 97, 97, 97, 0] := by decide

example :
    IR.from_intermed_repr
        [1, 0, 0, 0, 5,
         1, 0, 0, 0, 1, 97, 2, 1, 0,
         1, 0, 0, 0, 1, 98, 1, 0,
         2, 0, 0, 0, 1, 99, 0,
         3, 0, 0, 0, 1, 100, 0] =
      some (.mk .none [97]
        [(true, .mk .none [98] [(false, .mk .quote [99] [])]),
         (false, .mk .closure [100] [])]) := by decide


namespace TL

/-!
## The 2-D grid model (`trees-lang/src/compile.rs`)

`SplitedCode` and its queries, `find_a_block`, and `connect_blocks`.
Rust strings of single characters (`CodeCharacter::char`) are modelled as
`Char`; Rust `&str` contents as `List Char`.  The display widths supplied
by the external `unicode_width` crate are abstracted as a pair of
functions (a `WidthTables`); the `Mono` mode never consults them.
-/

/-- A single character of the grid with its column and display width
(`CodeCharacter`). -/
structure CodeCharacter where
  /-- The character itself. -/
  char : Char
  /-- The x position (column) of the character. -/
  x : Nat
  /-- The display width of the character. -/
  len : Nat
deriving DecidableEq, Repr

/-- `CharWidthMode`: how display widths are assigned. -/
inductive CharWidthMode where
  | mono
  | half
  | full
deriving DecidableEq, Repr

/-- The two character-width functions of the external `unicode_width`
crate (`str::width` and `str::width_cjk`), abstracted. -/
structure WidthTables where
  /-- `UnicodeWidthStr::width`. -/
  width : Char → Nat
  /-- `UnicodeWidthStr::width_cjk`. -/
  widthCjk : Char → Nat

/-- The `len` stored for one appended character (`SplitedCode::append`):
`Mono` is always 1, `Half` uses `width`, `Full` uses `width_cjk`. -/
def charLen (wt : WidthTables) (mode : CharWidthMode) (c : Char) : Nat :=
  match mode with
  | .mono => 1
  | .half => wt.width c
  | .full => wt.widthCjk c

/-- `SplitedCode`: the grid, an ordered list of rows of positioned
characters. -/
structure SplitedCode where
  /-- The rows of the grid. -/
  body : List (List CodeCharacter)
deriving DecidableEq, Repr

/-- `SplitedCode::get`: the character whose `x` equals the given column
in row `y`, absent when the row or such a cell does not exist. -/
def SplitedCode.get (code : SplitedCode) (x y : Nat) : Option CodeCharacter :=
  (code.body.get? y).bind fun row => row.find? fun cc => cc.x == x

/-- The scanning loop of `SplitedCode::get_slice_of_line` over the cells
after the `x_min_exclusive` cell: stop with the accumulated characters at
a cell whose `x` equals `x_max_exclusive`, fail on a cell whose `x`
exceeds it, append and continue otherwise; running off the end of the row
returns the accumulated characters (the Rust `while let` simply ends). -/
def sliceLoop (x_max_exclusive : Nat) : List CodeCharacter → List Char → Option (List Char)
  | [], acc => some acc
  | cc :: rest, acc =>
    if cc.x = x_max_exclusive then some acc
    else if x_max_exclusive < cc.x then none
    else sliceLoop x_max_exclusive rest (acc ++ [cc.char])

/-- `SplitedCode::get_slice_of_line`: find the cell at `x_min_exclusive`
in row `y`, then collect the characters of the following cells strictly
before `x_max_exclusive` (the in-loop `self.body.get(y)?` re-reads the
same row each iteration and is dropped here). -/
def SplitedCode.get_slice_of_line (code : SplitedCode)
    (x_min_exclusive x_max_exclusive y : Nat) : Option (List Char) := do
  let row ← code.body.get? y
  let i ← row.findIdx? fun cc => cc.x == x_min_exclusive
  sliceLoop x_max_exclusive (row.drop (i + 1)) []

/-- `SplitedCode::left_x`: the `x` of the cell stored immediately before
the cell at `x` in row `y`.  The Rust code computes `index - 1` on a
`usize`; at index 0 this wraps (release profile) to `2^64 - 1` and the
lookup is absent.  (In a debug build the subtraction would abort
instead.) -/
def SplitedCode.left_x (code : SplitedCode) (x y : Nat) : Option Nat := do
  let row ← code.body.get? y
  let i ← row.findIdx? fun cc => cc.x == x
  (row.get? (usizeSub1 i)).map (·.x)

/-- `SplitedCode::right_x`: the `x` of the cell stored immediately after
the cell at `x` in row `y`. -/
def SplitedCode.right_x (code : SplitedCode) (x y : Nat) : Option Nat := do
  let row ← code.body.get? y
  let i ← row.findIdx? fun cc => cc.x == x
  (row.get? (i + 1)).map (·.x)

/-- The `x` for the next appended cell of a row (`SplitedCode::append`):
0 for an empty row, else `last.x + last.len`. -/
def nextX (row : List CodeCharacter) : Nat :=
  match row.getLast? with
  | .none => 0
  | some last => last.x + last.len

/-- Build one row by appending the characters of one line in order
(the inner loop of `split_code` over `line.split("")`). -/
def splitRow (wt : WidthTables) (mode : CharWidthMode)
    (acc : List CodeCharacter) : List Char → List CodeCharacter
  | [] => acc
  | c :: rest => splitRow wt mode (acc ++ [⟨c, nextX acc, charLen wt mode c⟩]) rest

/-- The rows accumulated by `split_code`'s line loop.  `SplitedCode::new`
starts with a single empty row; each line fills the current last row and
`new_line` then pushes a fresh empty row, so every line yields one row
and a trailing empty row remains (`body.last_mut().unwrap()` never sees
an empty `body`). -/
def splitGo (wt : WidthTables) (mode : CharWidthMode) :
    List (List Char) → List (List CodeCharacter)
  | [] => [[]]
  | line :: rest => splitRow wt mode [] line :: splitGo wt mode rest

/-- `split_code`: split a list of lines into the positioned grid. -/
def split_code (wt : WidthTables) (mode : CharWidthMode)
    (lines : List (List Char)) : SplitedCode :=
  ⟨splitGo wt mode lines⟩

/-! ## C9: totality of the grid queries -/

theorem sliceLoop_all_lt (x_max : Nat) : ∀ (rest : List CodeCharacter) (acc : List Char),
    (∀ cc ∈ rest, cc.x < x_max) →
    sliceLoop x_max rest acc = some (acc ++ rest.map (·.char))
  | [], acc, _ => by simp [sliceLoop]
  | cc :: rest, acc, h => by
    have hcc := h cc (List.mem_cons_self _ _)
    rw [sliceLoop, if_neg (by omega), if_neg (by omega)]
    rw [sliceLoop_all_lt x_max rest (acc ++ [cc.char])
      (fun d hd => h d (List.mem_cons_of_mem _ hd))]
    simp

theorem sliceLoop_overshoot (x_max : Nat) :
    ∀ (pre : List CodeCharacter) (cc : CodeCharacter) (post : List CodeCharacter)
      (acc : List Char),
    (∀ d ∈ pre, d.x < x_max) → x_max < cc.x →
    sliceLoop x_max (pre ++ cc :: post) acc = none
  | [], cc, post, acc, _, hcc => by
    rw [List.nil_append, sliceLoop, if_neg (by omega), if_pos hcc]
  | d :: pre, cc, post, acc, hpre, hcc => by
    have hd := hpre d (List.mem_cons_self _ _)
    rw [List.cons_append, sliceLoop, if_neg (by omega), if_neg (by omega)]
    exact sliceLoop_overshoot x_max pre cc post (acc ++ [d.char])
      (fun e he => hpre e (List.mem_cons_of_mem _ he)) hcc

/-- **C9** (amended): totality of the grid queries, for any grid.
(i) With `y` past the last row every query is absent.
(ii) `left_x` at the `x` of the leftmost (first-stored) cell of a row is
absent: the Rust `index - 1` wraps to `2^64 - 1` and the lookup misses
(for any row shorter than `2^64` cells, i.e. every real `Vec`).
(iii) If every cell after the `x_min_exclusive` cell has `x` strictly
below `x_max_exclusive`, the slice is *present* and runs to the end of
the row — so `x_max_exclusive` being the `x` of no actual cell does
**not** imply absence (the original claim fails there, see
`splited_code_slice_cx`).
(iv) The slice is absent exactly on an overshoot: when some cell with
`x` above `x_max_exclusive` appears after the `x_min_exclusive` cell and
before any cell with `x` equal to it. -/
theorem splited_code_queries (code : SplitedCode) :
    (∀ x y x_max, code.body.length ≤ y →
        code.get x y = none ∧ code.left_x x y = none ∧ code.right_x x y = none
          ∧ code.get_slice_of_line x x_max y = none)
    ∧ (∀ y cc rest, code.body.get? y = some (cc :: rest) →
        (cc :: rest).length < USIZE →
        code.left_x cc.x y = none)
    ∧ (∀ y row i x_min x_max, code.body.get? y = some row →
        row.findIdx? (fun cc => cc.x == x_min) = some i →
        (∀ cc ∈ row.drop (i + 1), cc.x < x_max) →
        code.get_slice_of_line x_min x_max y
          = some ((row.drop (i + 1)).map (·.char)))
    ∧ (∀ y row i x_min x_max pre cc post, code.body.get? y = some row →
        row.findIdx? (fun cc => cc.x == x_min) = some i →
        row.drop (i + 1) = pre ++ cc :: post →
        (∀ d ∈ pre, d.x < x_max) → x_max < cc.x →
        code.get_slice_of_line x_min x_max y = none) := by
  refine ⟨?_, ?_, ?_, ?_⟩
  · intro x y x_max hy
    have hrow : code.body.get? y = none := List.get?_eq_none.mpr hy
    rw [List.get?_eq_getElem?] at hrow
    refine ⟨?_, ?_, ?_, ?_⟩ <;>
      simp [SplitedCode.get, SplitedCode.left_x, SplitedCode.right_x,
        SplitedCode.get_slice_of_line, hrow]
  · intro y cc rest hrow hlen
    have hidx : (cc :: rest).findIdx? (fun d => d.x == cc.x) = some 0 := by
      rw [List.findIdx?_cons]
      simp
    have hget : (cc :: rest).get? (usizeSub1 0) = none := by
      apply List.get?_eq_none.mpr
      have : usizeSub1 0 = USIZE - 1 := by simp [usizeSub1]
      rw [this]
      omega
    rw [List.get?_eq_getElem?] at hrow hget
    simp [SplitedCode.left_x, hrow, hidx, hget]
  · intro y row i x_min x_max hrow hidx hlt
    simp only [SplitedCode.get_slice_of_line, hrow, hidx, Option.bind_eq_bind,
      Option.some_bind]
    rw [sliceLoop_all_lt x_max _ [] hlt]
    simp
  · intro y row i x_min x_max pre cc post hrow hidx hdrop hpre hcc
    simp only [SplitedCode.get_slice_of_line, hrow, hidx, Option.bind_eq_bind,
      Option.some_bind]
    rw [hdrop, sliceLoop_overshoot x_max pre cc post [] hpre hcc]

/-- Witness for `splited_code_queries`, on the two-cell grids built by
`split_code` from the line `"ab"` in `Mono` (cells at x = 0, 1) and in
`Full` with width 2 (cells at x = 0, 2). -/
theorem splited_code_queries_witness :
    ((split_code ⟨fun _ => 1, fun _ => 2⟩ .mono [['a', 'b']]).get 0 9 = none
      ∧ (split_code ⟨fun _ => 1, fun _ => 2⟩ .mono [['a', 'b']]).left_x 0 9 = none
      ∧ (split_code ⟨fun _ => 1, fun _ => 2⟩ .mono [['a', 'b']]).right_x 0 9 = none
      ∧ (split_code ⟨fun _ => 1, fun _ => 2⟩ .mono [['a', 'b']]).get_slice_of_line 0 5 9 = none)
    ∧ (split_code ⟨fun _ => 1, fun _ => 2⟩ .mono [['a', 'b']]).left_x 0 0 = none
    ∧ (split_code ⟨fun _ => 1, fun _ => 2⟩ .mono [['a', 'b']]).get_slice_of_line 0 5 0
        = some ['b']
    ∧ (split_code ⟨fun _ => 1, fun _ => 2⟩ .full [['a', 'b']]).get_slice_of_line 0 1 0
        = none :=
  ⟨(splited_code_queries _).1 0 9 5 (by decide),
   (splited_code_queries _).2.1 0 ⟨'a', 0, 1⟩ [⟨'b', 1, 1⟩] (by decide) (by decide),
   (splited_code_queries _).2.2.1 0 [⟨'a', 0, 1⟩, ⟨'b', 1, 1⟩] 0 0 5 (by decide) (by decide)
     (by decide),
   (splited_code_queries _).2.2.2 0 [⟨'a', 0, 2⟩, ⟨'b', 2, 2⟩] 0 0 1 [] ⟨'b', 2, 2⟩ []
     (by decide) (by decide) (by decide) (by decide) (by decide)⟩

/-- **C9** counterexample: on the grid of the single line `"ab"` (cells
at x = 0 and 1), `x_max_exclusive = 5` is the `x` of no cell of row 0
(`get 5 0` is absent), yet `get_slice_of_line 0 5 0` returns the slice
`"b"` rather than `None`: past-the-end maxima slice to the end of the
row. -/
theorem splited_code_slice_cx :
    (split_code ⟨fun _ => 1, fun _ => 2⟩ .mono [['a', 'b']]).get 5 0 = none
    ∧ (split_code ⟨fun _ => 1, fun _ => 2⟩ .mono [['a', 'b']]).get_slice_of_line 0 5 0
      = some ['b'] := by decide

end TL

-- `test_split_code` of the repository (`" ┌┐"`, Mono): positions 0, 1, 2
-- and a trailing empty row.
example :
    TL.split_code ⟨fun _ => 1, fun _ => 2⟩ .mono [[' ', '┌', '┐']] =
      ⟨[[⟨' ', 0, 1⟩, ⟨'┌', 1, 1⟩, ⟨'┐', 2, 1⟩], []]⟩ := by decide

-- `test_split_code_cjk` (`" ┌┐"`, Full with box-drawing width 2).
example :
    TL.split_code ⟨fun _ => 1, fun c => if c = ' ' then 1 else 2⟩ .full
        [[' ', '┌', '┐']] =
      ⟨[[⟨' ', 0, 1⟩, ⟨'┌', 1, 2⟩, ⟨'┐', 3, 2⟩], []]⟩ := by decide

namespace TL

/-!
## Stable sorting (`slice::sort_by`)

Rust's `sort_by` is a stable sort.  It is modelled by a stable insertion
sort: for a comparator that is a total preorder, every stable sort
produces the same list, so the model is observationally identical to the
Rust implementation.
-/

/-- Insert `a` into `l` before the first element not strictly below it
(`cmp b a = .lt` keeps walking), so that an element equal to elements
already present goes in front of none of its later duplicates but after
all earlier ones — the stable insertion. -/
def insertByCmp (cmp : α → α → Ordering) (a : α) : List α → List α
  | [] => [a]
  | b :: l => if cmp b a = .lt then b :: insertByCmp cmp a l else a :: b :: l

/-- Stable insertion sort by a comparator (the model of `sort_by`).  The
first (earliest) element is inserted last, in front of its equals. -/
def sortByCmp (cmp : α → α → Ordering) : List α → List α
  | [] => []
  | a :: l => insertByCmp cmp a (sortByCmp cmp l)

theorem mem_insertByCmp (cmp : α → α → Ordering) (a x : α) :
    ∀ l, x ∈ insertByCmp cmp a l ↔ x = a ∨ x ∈ l
  | [] => by simp [insertByCmp]
  | b :: l => by
    by_cases hb : cmp b a = .lt
    · rw [insertByCmp, if_pos hb]
      simp [mem_insertByCmp cmp a x l]
      tauto
    · rw [insertByCmp, if_neg hb]
      simp

theorem insertByCmp_perm (cmp : α → α → Ordering) (a : α) :
    ∀ l, (insertByCmp cmp a l).Perm (a :: l)
  | [] => List.Perm.refl _
  | b :: l => by
    by_cases hb : cmp b a = .lt
    · rw [insertByCmp, if_pos hb]
      exact ((insertByCmp_perm cmp a l).cons b).trans (List.Perm.swap a b l)
    · rw [insertByCmp, if_neg hb]

theorem sortByCmp_perm (cmp : α → α → Ordering) :
    ∀ l, (sortByCmp cmp l).Perm l
  | [] => by simp [sortByCmp]
  | a :: l => by
    rw [sortByCmp]
    exact (insertByCmp_perm cmp a (sortByCmp cmp l)).trans
      ((sortByCmp_perm cmp l).cons a)

/-- Sortedness of the stable insertion sort, for a comparator whose
non-`gt` relation is total (via the swap property) and transitive. -/
theorem sortByCmp_sorted (cmp : α → α → Ordering)
    (swap : ∀ a b, cmp a b = .gt ↔ cmp b a = .lt)
    (trans : ∀ a b c, cmp a b ≠ .gt → cmp b c ≠ .gt → cmp a c ≠ .gt) :
    ∀ l, (sortByCmp cmp l).Pairwise fun p q => cmp p q ≠ .gt := by
  have insert_sorted : ∀ (a : α) (s : List α),
      (s.Pairwise fun p q => cmp p q ≠ .gt) →
      (insertByCmp cmp a s).Pairwise fun p q => cmp p q ≠ .gt := by
    intro a s
    induction s with
    | nil => intro _; simp [insertByCmp]
    | cons b s ih =>
      intro hs
      rw [List.pairwise_cons] at hs
      by_cases hb : cmp b a = .lt
      · rw [insertByCmp, if_pos hb]
        rw [List.pairwise_cons]
        refine ⟨?_, ih hs.2⟩
        intro x hx
        rcases (mem_insertByCmp cmp a x s).mp hx with rfl | hx
        · simp [hb]
        · exact hs.1 x hx
      · rw [insertByCmp, if_neg hb]
        rw [List.pairwise_cons]
        have hab : cmp a b ≠ .gt := fun hgt => hb ((swap a b).mp hgt)
        refine ⟨?_, List.pairwise_cons.mpr hs⟩
        intro x hx
        rcases List.mem_cons.mp hx with rfl | hx
        · exact hab
        · exact trans a b x hab (hs.1 x hx)
  intro l
  induction l with
  | nil => simp [sortByCmp]
  | cons a l ih =>
    rw [sortByCmp]
    exact insert_sorted a (sortByCmp cmp l) ih

/-- Stability of the insertion sort: the subsequence of elements
selected by `p` — all mutually `.eq` under the comparator — is exactly
the same subsequence as in the input. -/
theorem sortByCmp_filter_stable (cmp : α → α → Ordering) (p : α → Bool) :
    ∀ l, (∀ u ∈ l, ∀ v ∈ l, p u → p v → cmp u v = .eq) →
    (sortByCmp cmp l).filter p = l.filter p := by
  have insert_filter : ∀ (a : α) (s : List α),
      (∀ u ∈ s, p a → p u → cmp u a = .eq) →
      (insertByCmp cmp a s).filter p
        = if p a then a :: s.filter p else s.filter p := by
    intro a s
    induction s with
    | nil =>
      intro _
      by_cases ha : p a <;> simp [insertByCmp, List.filter_cons, ha]
    | cons b s ih =>
      intro hs
      have ih' := ih fun u hu => hs u (List.mem_cons_of_mem _ hu)
      by_cases hb : cmp b a = .lt
      · rw [insertByCmp, if_pos hb]
        by_cases hpa : p a
        · have hpb : p b = false := by
            rcases Bool.eq_false_or_eq_true (p b) with h | h
            · have := hs b (List.mem_cons_self _ _) hpa h
              simp [this] at hb
            · exact h
          rw [List.filter_cons, if_neg (by simp [hpb])]
          rw [ih', if_pos hpa]
          rw [if_pos hpa, List.filter_cons, if_neg (by simp [hpb])]
        · rw [List.filter_cons]
          rw [ih', if_neg hpa, if_neg hpa, List.filter_cons]
      · rw [insertByCmp, if_neg hb]
        by_cases hpa : p a
        · rw [List.filter_cons, if_pos (by simpa using hpa)]
        · rw [List.filter_cons, if_neg (by simpa using hpa)]
  intro l
  induction l with
  | nil => intro _; simp [sortByCmp]
  | cons a l ih =>
    intro hl
    rw [sortByCmp]
    have hperm := sortByCmp_perm cmp l
    rw [insert_filter a (sortByCmp cmp l)
      (fun u hu hpa hpu => hl u (List.mem_cons_of_mem _ (hperm.mem_iff.mp hu)) a
        (List.mem_cons_self _ _) hpu hpa)]
    rw [ih (fun u hu v hv => hl u (List.mem_cons_of_mem _ hu) v (List.mem_cons_of_mem _ hv))]
    by_cases hpa : p a
    · rw [if_pos hpa, List.filter_cons, if_pos (by simpa using hpa)]
    · rw [if_neg hpa, List.filter_cons, if_neg (by simpa using hpa)]

end TL

namespace TL

/-! ## Block finding (`find_a_block`, `find_blocks`) -/

/-- `Orientation`: direction of argument/edge routing. -/
inductive Orientation where
  | up
  | left
  | right
  | down
deriving DecidableEq, Repr

/-- `QuoteStyle` of a block-plug in the parser crate. -/
inductive QuoteStyle where
  | quote
  | closure
  | none
deriving DecidableEq, Repr

/-- `ArgPlug`: an argument attachment point. -/
structure ArgPlug where
  /-- X position of the plug. -/
  x : Nat
  /-- Y position of the plug. -/
  y : Nat
  /-- Variadic-splat flag (`@`). -/
  expand : Bool
  /-- Orientation of the plug. -/
  ori : Orientation
deriving DecidableEq, Repr

/-- `BlockPlug`: the result attachment point on the top edge. -/
structure BlockPlug where
  /-- X position of the plug. -/
  x : Nat
  /-- Y position of the plug. -/
  y : Nat
  /-- The quote style at this plug. -/
  quote : QuoteStyle
deriving DecidableEq, Repr

/-- `EdgeFragment`: one step of a traced edge. -/
structure EdgeFragment where
  /-- X coordinate. -/
  x : Nat
  /-- Y coordinate. -/
  y : Nat
  /-- Direction of this fragment. -/
  ori : Orientation
deriving DecidableEq, Repr

/-- `Edge`: a resolved connection from an arg-plug to a block-plug. -/
structure Edge where
  /-- Index of the block owning the arg-plug. -/
  block_index_of_arg_plug : Nat
  /-- The arg-plug. -/
  arg_plug_info : ArgPlug
  /-- The traced fragments. -/
  fragments : List EdgeFragment
  /-- Index of the block whose block-plug terminates the edge. -/
  block_index_of_block_plug : Nat
deriving DecidableEq, Repr

/-- `CompilingBlock`: a located box. -/
structure CompilingBlock where
  /-- Trimmed interior text. -/
  proc_name : List Char
  /-- X of the top-left corner. -/
  x : Nat
  /-- Y of the top-left corner. -/
  y : Nat
  /-- Width of the block. -/
  width : Nat
  /-- Height of the block. -/
  height : Nat
  /-- The optional block-plug on the top edge. -/
  block_plug : Option BlockPlug
  /-- The edge arriving at this block's block-plug (set by
  `connect_blocks`). -/
  connect_from : Option Edge
  /-- The argument plugs, in the sorted order of `find_a_block`. -/
  arg_plugs : List ArgPlug
  /-- The resolved argument edges (set by `connect_blocks`). -/
  args : List Edge
deriving DecidableEq, Repr

/-- The arg-plug comparator passed to `arg_plugs.sort_by` in
`find_a_block`: `x` ascending; ties on the block's left column by `y`
ascending; ties on the block's right column by `y` descending; other
ties equal. -/
def plugCmp (leftX rightX : Nat) (a b : ArgPlug) : Ordering :=
  if a.x ≠ b.x then compare a.x b.x
  else if a.x = leftX then compare a.y b.y
  else if a.x = rightX then compare b.y a.y
  else .eq

/-- The top-edge walk of `find_a_block`: across `─ ┴ • /`, recording at
most one block-plug (a second plug marker rejects the block), advancing
by each cell's display width.  Returns the final offset (where `┐` must
sit) and the plug.  The fuel bounds the loop, which Rust would run
forever on a zero-width cell. -/
def topWalk (code : SplitedCode) (x y : Nat) :
    Nat → Nat → Option BlockPlug → Option (Nat × Option BlockPlug)
  | 0, _, _ => Option.none
  | fuel + 1, width1, upPlug =>
    match code.get (x + width1) y with
    | Option.none => Option.none
    | some c =>
      if c.char = '─' then topWalk code x y fuel (width1 + c.len) upPlug
      else if c.char = '┴' ∨ c.char = '•' ∨ c.char = '/' then
        if upPlug.isSome then Option.none
        else
          let q : QuoteStyle :=
            if c.char = '┴' then .none else if c.char = '•' then .quote else .closure
          topWalk code x y fuel (width1 + c.len) (some ⟨x + width1, y, q⟩)
      else some (width1, upPlug)

/-- The right-edge walk: down across `│ ├ @`, collecting right-oriented
arg-plugs; returns the final row offset (where `┘` must sit). -/
def rightWalk (code : SplitedCode) (x y width1 : Nat) :
    Nat → Nat → List ArgPlug → Option (Nat × List ArgPlug)
  | 0, _, _ => Option.none
  | fuel + 1, height1, plugs =>
    match code.get (x + width1) (y + height1) with
    | Option.none => Option.none
    | some c =>
      if c.char = '│' then rightWalk code x y width1 fuel (height1 + 1) plugs
      else if c.char = '├' then
        rightWalk code x y width1 fuel (height1 + 1)
          (plugs ++ [⟨x + width1, y + height1, false, .right⟩])
      else if c.char = '@' then
        rightWalk code x y width1 fuel (height1 + 1)
          (plugs ++ [⟨x + width1, y + height1, true, .right⟩])
      else some (height1, plugs)

/-- The bottom-edge walk: right across `─ ┬ @`, collecting down-oriented
arg-plugs, advancing by display widths; must end at the right column. -/
def bottomWalk (code : SplitedCode) (x y height1 : Nat) :
    Nat → Nat → List ArgPlug → Option (Nat × List ArgPlug)
  | 0, _, _ => Option.none
  | fuel + 1, uw, plugs =>
    match code.get (x + uw) (y + height1) with
    | Option.none => Option.none
    | some c =>
      if c.char = '─' then bottomWalk code x y height1 fuel (uw + c.len) plugs
      else if c.char = '┬' then
        bottomWalk code x y height1 fuel (uw + c.len)
          (plugs ++ [⟨x + uw, y + height1, false, .down⟩])
      else if c.char = '@' then
        bottomWalk code x y height1 fuel (uw + c.len)
          (plugs ++ [⟨x + uw, y + height1, true, .down⟩])
      else some (uw, plugs)

/-- The left-edge walk: down across `│ ┤ @`, collecting left-oriented
arg-plugs; its final row offset must equal the right edge's. -/
def leftWalk (code : SplitedCode) (x y : Nat) :
    Nat → Nat → List ArgPlug → Option (Nat × List ArgPlug)
  | 0, _, _ => Option.none
  | fuel + 1, uh, plugs =>
    match code.get x (y + uh) with
    | Option.none => Option.none
    | some c =>
      if c.char = '│' then leftWalk code x y fuel (uh + 1) plugs
      else if c.char = '┤' then
        leftWalk code x y fuel (uh + 1) (plugs ++ [⟨x, y + uh, false, .left⟩])
      else if c.char = '@' then
        leftWalk code x y fuel (uh + 1) (plugs ++ [⟨x, y + uh, true, .left⟩])
      else some (uh, plugs)

/-- Rust's `str::trim` predicate (`char::is_whitespace`, the Unicode
`White_Space` property). -/
def rustWhitespace (c : Char) : Bool :=
  c.toNat = 0x20 || (0x09 ≤ c.toNat && c.toNat ≤ 0x0D) || c.toNat = 0x85
    || c.toNat = 0xA0 || c.toNat = 0x1680
    || (0x2000 ≤ c.toNat && c.toNat ≤ 0x200A) || c.toNat = 0x2028
    || c.toNat = 0x2029 || c.toNat = 0x202F || c.toNat = 0x205F
    || c.toNat = 0x3000

/-- `str::trim`: drop whitespace from both ends. -/
def trim (s : List Char) : List Char :=
  ((s.dropWhile rustWhitespace).reverse.dropWhile rustWhitespace).reverse

/-- The interior rows of the block, each sliced between the two columns,
trimmed, and terminated with a newline (`for inside_y in 1..height1`).
`cnt` counts the remaining rows. -/
def procNameRows (code : SplitedCode) (x y width1 : Nat) :
    Nat → Nat → Option (List Char)
  | 0, _ => some []
  | cnt + 1, inside_y => do
    let s ← code.get_slice_of_line x (x + width1) (y + inside_y)
    let rest ← procNameRows code x y width1 cnt (inside_y + 1)
    pure (trim s ++ '\n' :: rest)

/-- An `if .. { return None }` rejection check of `find_a_block`. -/
def check (b : Bool) : Option Unit :=
  if b then some () else Option.none

theorem check_eq_some {b : Bool} {u : Unit} : check b = some u ↔ b = true := by
  cases b <;> simp [check]

/-- The top-edge stage of `find_a_block`: the `┌` corner, the initial
`width1 = right_x(x, y)? - x`, the top walk, and the `┐` corner check.
Returns `width1`, the optional block-plug, and the `┐` cell (whose `len`
enters the block's width). -/
def faTop (fuel : Nat) (code : SplitedCode) (x y : Nat) :
    Option (Nat × Option BlockPlug × CodeCharacter) := do
  let c0 ← code.get x y
  let _ ← check (c0.char = '┌')
  let r ← code.right_x x y
  let wp ← topWalk code x y fuel (r - x) Option.none
  let ctr ← code.get (x + wp.1) y
  let _ ← check (ctr.char = '┐')
  pure (wp.1, wp.2, ctr)

/-- The right-edge stage of `find_a_block`: the right walk from row 1
and the `┘` corner check.  Returns `height1` and the plugs so far. -/
def faRight (fuel : Nat) (code : SplitedCode) (x y width1 : Nat) :
    Option (Nat × List ArgPlug) := do
  let hp ← rightWalk code x y width1 fuel 1 []
  let cbr ← code.get (x + width1) (y + hp.1)
  let _ ← check (cbr.char = '┘')
  pure hp

/-- The bottom-edge stage of `find_a_block`: `under_width1 = right_x(x,
y + height1)? - x`, the bottom walk, and the `└` corner and
`under_width1 == width1` checks. -/
def faBottom (fuel : Nat) (code : SplitedCode) (x y width1 height1 : Nat)
    (plugs1 : List ArgPlug) : Option (List ArgPlug) := do
  let r2 ← code.right_x x (y + height1)
  let up ← bottomWalk code x y height1 fuel (r2 - x) plugs1
  let cbl ← code.get x (y + height1)
  let _ ← check (cbl.char = '└' && up.1 == width1)
  pure up.2

/-- The left-edge stage of `find_a_block`: the left walk and the
`under_height1 == height1` check. -/
def faLeft (fuel : Nat) (code : SplitedCode) (x y height1 : Nat)
    (plugs2 : List ArgPlug) : Option (List ArgPlug) := do
  let lp ← leftWalk code x y fuel 1 plugs2
  let _ ← check (lp.1 == height1)
  pure lp.2

/-- `find_a_block` (trees-lang/src/compile.rs:320-485): try to read a
box whose top-left corner is at `(x, y)`: the four edge stages in the
source's order, the interior text, and the stable arg-plug sort.  `None`
is a rejection (that grid position holds no block); each Rust
`if .. { return None }` is a `check` inside its stage; the unused
`_config` parameter of the Rust function is dropped.  The fuel bounds
the four walks. -/
def find_a_block (fuel : Nat) (code : SplitedCode) (x y : Nat) :
    Option CompilingBlock := do
  let top ← faTop fuel code x y
  let hp ← faRight fuel code x y top.1
  let plugs2 ← faBottom fuel code x y top.1 hp.1 hp.2
  let plugs3 ← faLeft fuel code x y hp.1 plugs2
  let pname ← procNameRows code x y top.1 (hp.1 - 1) 1
  pure { proc_name := trim pname, x := x, y := y,
         width := top.1 + top.2.2.len, height := hp.1 + 1,
         block_plug := top.2.1, connect_from := Option.none,
         arg_plugs := sortByCmp (plugCmp x (x + top.1)) plugs3,
         args := [] }

/-- `find_blocks`: scan one row's cells left to right, accumulating the
blocks found at each cell position. -/
def findBlocksRow (fuel : Nat) (code : SplitedCode) (y : Nat) :
    List CodeCharacter → List CompilingBlock
  | [] => []
  | cc :: rest =>
    match find_a_block fuel code cc.x y with
    | some b => b :: findBlocksRow fuel code y rest
    | Option.none => findBlocksRow fuel code y rest

/-- `find_blocks` (trees-lang/src/compile.rs:490-502): scan every cell
of every row (`enumurate_x`), collecting the accepted blocks in order. -/
def find_blocks (fuel : Nat) (code : SplitedCode) : List CompilingBlock :=
  go code.body 0
where
  /-- Scan the rows from index `y` down. -/
  go : List (List CodeCharacter) → Nat → List CompilingBlock
  | [], _ => []
  | row :: rest, y => findBlocksRow fuel code y row ++ go rest (y + 1)

end TL

namespace TL

/-! ## C5: the arg-plug total ordering -/

theorem plugCmp_swap (L R : Nat) (a b : ArgPlug) :
    plugCmp L R a b = .gt ↔ plugCmp L R b a = .lt := by
  unfold plugCmp
  split_ifs <;>
    simp [Nat.compare_eq_gt, Nat.compare_eq_lt] <;> omega

theorem plugCmp_trans (L R : Nat) (a b c : ArgPlug) :
    plugCmp L R a b ≠ .gt → plugCmp L R b c ≠ .gt → plugCmp L R a c ≠ .gt := by
  unfold plugCmp
  split_ifs <;>
    simp [Nat.compare_eq_gt, Nat.compare_eq_lt] <;> omega

/-- What "not greater" under the `find_a_block` comparator means, in the
vocabulary of the ordering claim: `x` strictly below, or equal `x` with
the left-column rule (`y` ascending), the right-column rule (`y`
descending), or the bottom-edge rule (tied). -/
theorem plugCmp_le_iff (L R : Nat) (p q : ArgPlug) :
    plugCmp L R p q ≠ .gt ↔
      (p.x < q.x ∨ (p.x = q.x ∧
        ((p.x = L ∧ p.y ≤ q.y)
          ∨ (p.x ≠ L ∧ p.x = R ∧ q.y ≤ p.y)
          ∨ (p.x ≠ L ∧ p.x ≠ R)))) := by
  unfold plugCmp
  split_ifs <;>
    simp [Nat.compare_eq_gt, Nat.compare_eq_lt] <;> omega

theorem rightWalk_plugs (code : SplitedCode) (x y w1 : Nat) :
    ∀ (fuel h1 : Nat) (ps : List ArgPlug) (res : Nat × List ArgPlug),
    rightWalk code x y w1 fuel h1 ps = some res →
    ∀ p ∈ res.2, p ∈ ps ∨ (p.x = x + w1 ∧ p.ori = .right)
  | 0, h1, ps, res, h => by simp [rightWalk] at h
  | fuel + 1, h1, ps, res, h => by
    rw [rightWalk] at h
    rcases hg : code.get (x + w1) (y + h1) with _ | c <;> rw [hg] at h
    · exact absurd h (by simp)
    · dsimp only at h
      split_ifs at h with hc1 hc2 hc3
      · exact rightWalk_plugs code x y w1 fuel _ _ _ h
      · intro p hp
        rcases rightWalk_plugs code x y w1 fuel _ _ _ h p hp with hmem | hnew
        · rcases List.mem_append.mp hmem with hm | hm
          · exact Or.inl hm
          · refine Or.inr ?_
            simp only [List.mem_singleton] at hm
            subst hm
            exact ⟨rfl, rfl⟩
        · exact Or.inr hnew
      · intro p hp
        rcases rightWalk_plugs code x y w1 fuel _ _ _ h p hp with hmem | hnew
        · rcases List.mem_append.mp hmem with hm | hm
          · exact Or.inl hm
          · refine Or.inr ?_
            simp only [List.mem_singleton] at hm
            subst hm
            exact ⟨rfl, rfl⟩
        · exact Or.inr hnew
      · intro p hp
        have hres : res = (h1, ps) := (Option.some.inj h).symm
        rw [hres] at hp
        exact Or.inl hp

theorem bottomWalk_plugs (code : SplitedCode) (x y h1 : Nat) :
    ∀ (fuel uw : Nat) (ps : List ArgPlug) (res : Nat × List ArgPlug),
    bottomWalk code x y h1 fuel uw ps = some res →
    ∀ p ∈ res.2, p ∈ ps ∨ (p.y = y + h1 ∧ p.ori = .down)
  | 0, uw, ps, res, h => by simp [bottomWalk] at h
  | fuel + 1, uw, ps, res, h => by
    rw [bottomWalk] at h
    rcases hg : code.get (x + uw) (y + h1) with _ | c <;> rw [hg] at h
    · exact absurd h (by simp)
    · dsimp only at h
      split_ifs at h with hc1 hc2 hc3
      · exact bottomWalk_plugs code x y h1 fuel _ _ _ h
      · intro p hp
        rcases bottomWalk_plugs code x y h1 fuel _ _ _ h p hp with hmem | hnew
        · rcases List.mem_append.mp hmem with hm | hm
          · exact Or.inl hm
          · refine Or.inr ?_
            simp only [List.mem_singleton] at hm
            subst hm
            exact ⟨rfl, rfl⟩
        · exact Or.inr hnew
      · intro p hp
        rcases bottomWalk_plugs code x y h1 fuel _ _ _ h p hp with hmem | hnew
        · rcases List.mem_append.mp hmem with hm | hm
          · exact Or.inl hm
          · refine Or.inr ?_
            simp only [List.mem_singleton] at hm
            subst hm
            exact ⟨rfl, rfl⟩
        · exact Or.inr hnew
      · intro p hp
        have hres : res = (uw, ps) := (Option.some.inj h).symm
        rw [hres] at hp
        exact Or.inl hp

theorem leftWalk_plugs (code : SplitedCode) (x y : Nat) :
    ∀ (fuel uh : Nat) (ps : List ArgPlug) (res : Nat × List ArgPlug),
    leftWalk code x y fuel uh ps = some res →
    ∀ p ∈ res.2, p ∈ ps ∨ (p.x = x ∧ p.ori = .left)
  | 0, uh, ps, res, h => by simp [leftWalk] at h
  | fuel + 1, uh, ps, res, h => by
    rw [leftWalk] at h
    rcases hg : code.get x (y + uh) with _ | c <;> rw [hg] at h
    · exact absurd h (by simp)
    · dsimp only at h
      split_ifs at h with hc1 hc2 hc3
      · exact leftWalk_plugs code x y fuel _ _ _ h
      · intro p hp
        rcases leftWalk_plugs code x y fuel _ _ _ h p hp with hmem | hnew
        · rcases List.mem_append.mp hmem with hm | hm
          · exact Or.inl hm
          · refine Or.inr ?_
            simp only [List.mem_singleton] at hm
            subst hm
            exact ⟨rfl, rfl⟩
        · exact Or.inr hnew
      · intro p hp
        rcases leftWalk_plugs code x y fuel _ _ _ h p hp with hmem | hnew
        · rcases List.mem_append.mp hmem with hm | hm
          · exact Or.inl hm
          · refine Or.inr ?_
            simp only [List.mem_singleton] at hm
            subst hm
            exact ⟨rfl, rfl⟩
        · exact Or.inr hnew
      · intro p hp
        have hres : res = (uh, ps) := (Option.some.inj h).symm
        rw [hres] at hp
        exact Or.inl hp

/-- **C5**: for every block accepted by `find_a_block`, the arg-plug
list is the stable sort, by the coordinate-only comparator
`plugCmp b.x rightX` (`rightX = b.x + width1`, the block's right
column), of the plugs in wall-walking insertion order; hence it is
(i) a permutation of the collected plugs, (ii) pairwise ordered with
primary key `x` ascending, ties at the block's left column by `y`
ascending, ties at the right column by `y` descending, and (iii) any
set of mutually-tied plugs (in particular the bottom-edge plugs) keeps
its insertion order. -/
theorem find_a_block_arg_order (fuel : Nat) (code : SplitedCode) (x y : Nat)
    (b : CompilingBlock) (h : find_a_block fuel code x y = some b) :
    ∃ rightX raw,
      b.x = x
      ∧ b.arg_plugs = sortByCmp (plugCmp b.x rightX) raw
      ∧ b.arg_plugs.Perm raw
      ∧ b.arg_plugs.Pairwise (fun p q =>
          p.x < q.x ∨ (p.x = q.x ∧
            ((p.x = b.x ∧ p.y ≤ q.y)
              ∨ (p.x ≠ b.x ∧ p.x = rightX ∧ q.y ≤ p.y)
              ∨ (p.x ≠ b.x ∧ p.x ≠ rightX))))
      ∧ (∀ p ∈ raw,
          (p.x = rightX ∧ p.ori = .right)
            ∨ p.ori = .down ∨ (p.x = b.x ∧ p.ori = .left))
      ∧ ∀ (p : ArgPlug → Bool),
          (∀ u ∈ raw, ∀ v ∈ raw, p u → p v → plugCmp b.x rightX u v = .eq) →
          b.arg_plugs.filter p = raw.filter p := by
  simp only [find_a_block, Option.bind_eq_bind, Option.bind_eq_some, Option.pure_def,
    Option.some.injEq] at h
  obtain ⟨top, htop, hp, hhp, plugs2, hpl2, plugs3, hpl3, pname, hpn, hb⟩ := h
  subst hb
  refine ⟨x + top.1, plugs3, rfl, rfl, ?_, ?_, ?_, ?_⟩
  · exact sortByCmp_perm _ _
  · have hs := sortByCmp_sorted (plugCmp x (x + top.1))
      (plugCmp_swap x (x + top.1)) (plugCmp_trans x (x + top.1)) plugs3
    exact hs.imp fun {p q} hpq => (plugCmp_le_iff x (x + top.1) p q).mp hpq
  · simp only [faRight, Option.bind_eq_bind, Option.bind_eq_some, Option.pure_def,
      Option.some.injEq] at hhp
    obtain ⟨hp0, hrw, cbr, hcbr, u2, hchk2, heq2⟩ := hhp
    subst heq2
    simp only [faBottom, Option.bind_eq_bind, Option.bind_eq_some, Option.pure_def,
      Option.some.injEq] at hpl2
    obtain ⟨r2, hr2, up, hbw, cbl, hcbl, u4, hchk4, heq4⟩ := hpl2
    subst heq4
    simp only [faLeft, Option.bind_eq_bind, Option.bind_eq_some, Option.pure_def,
      Option.some.injEq] at hpl3
    obtain ⟨lp, hlw, u5, hchk5, heq5⟩ := hpl3
    subst heq5
    intro p hpmem
    rcases leftWalk_plugs code x y fuel 1 up.2 lp hlw p hpmem with hm | hl
    · rcases bottomWalk_plugs code x y hp0.1 fuel (r2 - x) hp0.2 up hbw p hm with hm | hd
      · rcases rightWalk_plugs code x y top.1 fuel 1 [] hp0 hrw p hm with hm | hr
        · exact absurd hm (List.not_mem_nil p)
        · exact Or.inl hr
      · exact Or.inr (Or.inl hd.2)
    · exact Or.inr (Or.inr hl)
  · intro p hp
    exact sortByCmp_filter_stable (plugCmp x (x + top.1)) p plugs3 hp

/-- Witness for `find_a_block_arg_order`: the box `┌──┐ / ┤ a├ / └┬─┘`
at the origin, which has one plug on each of its left, bottom, and right
walls. -/
theorem find_a_block_arg_order_witness :
    ∃ rightX raw,
      ({ proc_name := ['a'], x := 0, y := 0, width := 4, height := 3,
         block_plug := Option.none, connect_from := Option.none,
         arg_plugs := [⟨0, 1, false, .left⟩, ⟨1, 2, false, .down⟩, ⟨3, 1, false, .right⟩],
         args := [] } : CompilingBlock).x = 0
      ∧ ({ proc_name := ['a'], x := 0, y := 0, width := 4, height := 3,
           block_plug := Option.none, connect_from := Option.none,
           arg_plugs := [⟨0, 1, false, .left⟩, ⟨1, 2, false, .down⟩, ⟨3, 1, false, .right⟩],
           args := [] } : CompilingBlock).arg_plugs
          = sortByCmp (plugCmp 0 rightX) raw
      ∧ List.Perm [⟨0, 1, false, .left⟩, ⟨1, 2, false, .down⟩,
          (⟨3, 1, false, .right⟩ : ArgPlug)] raw
      ∧ List.Pairwise (fun p q : ArgPlug =>
          p.x < q.x ∨ (p.x = q.x ∧
            ((p.x = 0 ∧ p.y ≤ q.y)
              ∨ (p.x ≠ 0 ∧ p.x = rightX ∧ q.y ≤ p.y)
              ∨ (p.x ≠ 0 ∧ p.x ≠ rightX))))
          [⟨0, 1, false, .left⟩, ⟨1, 2, false, .down⟩, ⟨3, 1, false, .right⟩]
      ∧ (∀ p ∈ raw,
          ((p : ArgPlug).x = rightX ∧ p.ori = .right)
            ∨ p.ori = .down ∨ (p.x = 0 ∧ p.ori = .left))
      ∧ ∀ (p : ArgPlug → Bool),
          (∀ u ∈ raw, ∀ v ∈ raw, p u → p v → plugCmp 0 rightX u v = .eq) →
          List.filter p [⟨0, 1, false, .left⟩, ⟨1, 2, false, .down⟩,
            (⟨3, 1, false, .right⟩ : ArgPlug)] = raw.filter p :=
  find_a_block_arg_order 50
    (split_code ⟨fun _ => 1, fun _ => 1⟩ .mono
      ["┌──┐".toList, "┤ a├".toList, "└┬─┘".toList]) 0 0
    { proc_name := ['a'], x := 0, y := 0, width := 4, height := 3,
      block_plug := Option.none, connect_from := Option.none,
      arg_plugs := [⟨0, 1, false, .left⟩, ⟨1, 2, false, .down⟩, ⟨3, 1, false, .right⟩],
      args := [] }
    (by decide)

end TL

namespace TL

/-! ## Edge tracing and linking (`find_next_edge`, `connect_blocks`) -/

/-- `CompileError` (trees-lang/src/compile/errors.rs): non-unique start
block (with the candidate blocks) or a dangling argument edge (with the
owning block as already partially linked, the plug, the collected
fragments, and the final coordinate). -/
inductive CompileError where
  | nonUniqueStartBlock (candinates : List CompilingBlock)
  | danglingArgEdge (block_of_arg_plug : CompilingBlock) (arg_plug : ArgPlug)
      (edge_fragments : List EdgeFragment) (dangling_position : Nat × Nat)
deriving DecidableEq, Repr

/-- The `update_and_check` closure of `find_next_edge`: look at the cell
at the new position and classify its character against the four
direction-continuation characters (Rust passes `""` for "no
continuation this way", modelled as `Option.none`).  `Except.error`
carries the stop fragment (original orientation), `Except.ok` the next
fragment. -/
def update_and_check (code : SplitedCode) (ori : Orientation) (new_x new_y : Nat)
    (up left right down : Option Char) : Except EdgeFragment EdgeFragment :=
  match code.get new_x new_y with
  | Option.none => .error ⟨new_x, new_y, ori⟩
  | some cc =>
    if some cc.char = up then .ok ⟨new_x, new_y, .up⟩
    else if some cc.char = left then .ok ⟨new_x, new_y, .left⟩
    else if some cc.char = right then .ok ⟨new_x, new_y, .right⟩
    else if some cc.char = down then .ok ⟨new_x, new_y, .down⟩
    else .error ⟨new_x, new_y, ori⟩

/-- `find_next_edge` (trees-lang/src/compile.rs:504-560): one tracing
step.  `Up` looks at `y - 1` and `Left` falls back to `x - 1`; these
`usize` subtractions wrap in a release build (`usizeSub1`).  `Right`
falls back to `x + len` of the current cell, whose `unwrap()` panics
(`Option.none` outside) when that cell is absent. -/
def find_next_edge (code : SplitedCode) (x y : Nat) (ori : Orientation) :
    Option (Except EdgeFragment EdgeFragment) :=
  match ori with
  | .up => some (update_and_check code .up x (usizeSub1 y)
      (some '│') (some '┐') (some '┌') Option.none)
  | .left => some (update_and_check code .left ((code.left_x x y).getD (usizeSub1 x)) y
      (some '└') (some '─') Option.none (some '┌'))
  | .right =>
    match code.get x y with
    | Option.none => Option.none
    | some cc => some (update_and_check code .right ((code.right_x x y).getD (x + cc.len)) y
        (some '┘') Option.none (some '─') (some '┐'))
  | .down => some (update_and_check code .down x (y + 1)
      Option.none (some '┘') (some '└') (some '│'))

/-- The per-plug tracing loop of `connect_blocks`: follow `Ok` fragments
(updating position, orientation, and the fragment list) until an `Err`
fragment stops the trace, yielding the final coordinate and the
collected fragments.  The Rust loop runs forever on a closed circuit of
line characters; the fuel bounds it. -/
def traceEdge (code : SplitedCode) :
    Nat → Nat → Nat → Orientation → List EdgeFragment →
    Option (Nat × Nat × List EdgeFragment)
  | 0, _, _, _, _ => Option.none
  | fuel + 1, x, y, ori, frags =>
    match find_next_edge code x y ori with
    | Option.none => Option.none
    | some (.ok e) => traceEdge code fuel e.x e.y e.ori (frags ++ [e])
    | some (.error e) => some (e.x, e.y, frags)

/-- The target lookup of `connect_blocks`: the first block of the
original (`blocks_cloned`) list whose block-plug sits at the traced
final coordinate. -/
def findPlugIndex (cloned : List CompilingBlock) (mx my : Nat) : Option Nat :=
  cloned.findIdx? fun bb =>
    match bb.block_plug with
    | some p => p.x == mx && p.y == my
    | Option.none => false

/-- The inner loop of `connect_blocks` over one block's arg-plugs: trace
each plug, resolve its target in the original block list, push the edge
onto the block's `args` and onto the deferred `connect_from` list. -/
def processPlugs (fuel : Nat) (code : SplitedCode) (cloned : List CompilingBlock)
    (bi : Nat) :
    CompilingBlock → List ArgPlug → List (Nat × Edge) →
    Option (Except CompileError (CompilingBlock × List (Nat × Edge)))
  | b, [], deferred => some (.ok (b, deferred))
  | b, plug :: rest, deferred =>
    match traceEdge code fuel plug.x plug.y plug.ori [] with
    | Option.none => Option.none
    | some (mx, my, frags) =>
      match findPlugIndex cloned mx my with
      | Option.none => some (.error (.danglingArgEdge b plug frags (mx, my)))
      | some ti =>
        processPlugs fuel code cloned bi
          { b with args := b.args ++ [⟨bi, plug, frags, ti⟩] } rest
          (deferred ++ [(ti, ⟨bi, plug, frags, ti⟩)])

/-- The outer loop of `connect_blocks` over the (mutable) block list,
with `bi` the running block index. -/
def processBlocks (fuel : Nat) (code : SplitedCode) (cloned : List CompilingBlock) :
    Nat → List CompilingBlock → List (Nat × Edge) →
    Option (Except CompileError (List CompilingBlock × List (Nat × Edge)))
  | _, [], deferred => some (.ok ([], deferred))
  | bi, b :: rest, deferred =>
    match processPlugs fuel code cloned bi b b.arg_plugs deferred with
    | Option.none => Option.none
    | some (.error e) => some (.error e)
    | some (.ok (b', deferred')) =>
      match processBlocks fuel code cloned (bi + 1) rest deferred' with
      | Option.none => Option.none
      | some (.error e) => some (.error e)
      | some (.ok (rest', deferred'')) => some (.ok (b' :: rest', deferred''))

/-- `blocks[i].connect_from = Some(edge)` (the index is always in range
in `connect_blocks`; out of range the model changes nothing). -/
def setConnectFrom (e : Edge) : List CompilingBlock → Nat → List CompilingBlock
  | [], _ => []
  | b :: rest, 0 => { b with connect_from := some e } :: rest
  | b :: rest, i + 1 => b :: setConnectFrom e rest i

/-- Apply the deferred `connect_from` assignments in order (a later
edge to the same target overwrites an earlier one, as in Rust). -/
def applyDeferred : List CompilingBlock → List (Nat × Edge) → List CompilingBlock
  | blocks, [] => blocks
  | blocks, (i, e) :: rest => applyDeferred (setConnectFrom e blocks i) rest

/-- `head_candinates`: the indices of the blocks with no block-plug, in
order (`filter_map` over `enumerate`). -/
def headCandinates (blocks : List CompilingBlock) : List Nat :=
  go 0 blocks
where
  /-- Collect plug-less block indices starting at index `i`. -/
  go (i : Nat) : List CompilingBlock → List Nat
  | [] => []
  | b :: rest => if b.block_plug.isSome then go (i + 1) rest else i :: go (i + 1) rest

/-- `connect_blocks` (trees-lang/src/compile.rs:565-654): root-candidate
check first (`NonUniqueStartBlock` with the candidate blocks), then the
edge-resolution loops over a snapshot (`blocks_cloned`) of the input,
then the deferred `connect_from` assignments, and finally
`blocks[head].clone()` — the unique plug-less block, as mutated. -/
def connect_blocks (fuel : Nat) (code : SplitedCode)
    (blocks : List CompilingBlock) : Option (Except CompileError CompilingBlock) :=
  let cands := headCandinates blocks
  if cands.length ≠ 1 then
    some (.error (.nonUniqueStartBlock (cands.filterMap fun i => blocks.get? i)))
  else
    match processBlocks fuel code blocks 0 blocks [] with
    | Option.none => Option.none
    | some (.error e) => some (.error e)
    | some (.ok (blocks2, deferred)) =>
      match cands with
      | [hd] =>
        match (applyDeferred blocks2 deferred).get? hd with
        | some root => some (.ok root)
        | Option.none => Option.none
      | _ => Option.none

end TL

namespace TL

/-- Equality of every `CompilingBlock` field that `connect_blocks` never
mutates (all fields except `connect_from` and `args`). -/
def sameShape (a b : CompilingBlock) : Prop :=
  a.proc_name = b.proc_name ∧ a.x = b.x ∧ a.y = b.y ∧ a.width = b.width ∧
    a.height = b.height ∧ a.block_plug = b.block_plug ∧ a.arg_plugs = b.arg_plugs

theorem sameShape_refl (a : CompilingBlock) : sameShape a a :=
  ⟨rfl, rfl, rfl, rfl, rfl, rfl, rfl⟩

theorem sameShape_trans {a b c : CompilingBlock} (h1 : sameShape a b)
    (h2 : sameShape b c) : sameShape a c := by
  obtain ⟨a1, a2, a3, a4, a5, a6, a7⟩ := h1
  obtain ⟨b1, b2, b3, b4, b5, b6, b7⟩ := h2
  exact ⟨a1.trans b1, a2.trans b2, a3.trans b3, a4.trans b4, a5.trans b5,
    a6.trans b6, a7.trans b7⟩

/-- The plug loop only appends to `args`: all other fields survive. -/
theorem processPlugs_shape (fuel : Nat) (code : SplitedCode)
    (cloned : List CompilingBlock) (bi : Nat) (plugs : List ArgPlug) :
    ∀ b deferred res,
      processPlugs fuel code cloned bi b plugs deferred = some (.ok res) →
      sameShape res.1 b := by
  induction plugs with
  | nil =>
    intro b deferred res h
    simp only [processPlugs, Option.some.injEq, Except.ok.injEq] at h
    cases h
    exact sameShape_refl b
  | cons plug rest ih =>
    intro b deferred res h
    rw [processPlugs] at h
    rcases ht : traceEdge code fuel plug.x plug.y plug.ori [] with _ | ⟨mx, my, frags⟩ <;>
      rw [ht] at h <;> dsimp only at h
    · cases h
    · rcases hf : findPlugIndex cloned mx my with _ | ti <;> rw [hf] at h
      · simp at h
      · exact sameShape_trans (ih _ _ _ h) ⟨rfl, rfl, rfl, rfl, rfl, rfl, rfl⟩

/-- The block loop keeps the length of the list and the shape of each
block. -/
theorem processBlocks_shape (fuel : Nat) (code : SplitedCode)
    (cloned : List CompilingBlock) :
    ∀ bs bi deferred res,
      processBlocks fuel code cloned bi bs deferred = some (.ok res) →
      res.1.length = bs.length ∧
        ∀ j b0, bs.get? j = some b0 →
          ∃ b1, res.1.get? j = some b1 ∧ sameShape b1 b0 := by
  intro bs
  induction bs with
  | nil =>
    intro bi deferred res h
    simp only [processBlocks, Option.some.injEq, Except.ok.injEq] at h
    cases h
    exact ⟨rfl, fun j b0 h0 => by simp at h0⟩
  | cons b rest ih =>
    intro bi deferred res h
    rw [processBlocks] at h
    rcases hp : processPlugs fuel code cloned bi b b.arg_plugs deferred
        with _ | e <;> rw [hp] at h
    · cases h
    · rcases e with e | ⟨b', deferred'⟩ <;> dsimp only at h
      · simp at h
      · rcases hr : processBlocks fuel code cloned (bi + 1) rest deferred'
            with _ | e2 <;> rw [hr] at h
        · cases h
        · rcases e2 with e2 | ⟨rest', deferred''⟩ <;> dsimp only at h
          · simp at h
          · simp only [Option.some.injEq, Except.ok.injEq] at h
            cases h
            obtain ⟨hlen, hget⟩ := ih (bi + 1) deferred' (rest', deferred'') hr
            refine ⟨by simpa using hlen, fun j b0 h0 => ?_⟩
            cases j with
            | zero =>
              simp only [List.get?] at h0 ⊢
              cases h0
              exact ⟨b', rfl, processPlugs_shape fuel code cloned bi b.arg_plugs
                b deferred (b', deferred') hp⟩
            | succ j =>
              simp only [List.get?] at h0 ⊢
              exact hget j b0 h0

theorem setConnectFrom_length (e : Edge) :
    ∀ bs i, (setConnectFrom e bs i).length = bs.length := by
  intro bs
  induction bs with
  | nil => intro i; rfl
  | cons b rest ih =>
    intro i
    cases i with
    | zero => rfl
    | succ i => simpa [setConnectFrom] using ih i

/-- `setConnectFrom` changes at most the `connect_from` field at one
index. -/
theorem setConnectFrom_get (e : Edge) :
    ∀ bs i j b0, bs.get? j = some b0 →
      ∃ b1, (setConnectFrom e bs i).get? j = some b1 ∧ sameShape b1 b0 := by
  intro bs
  induction bs with
  | nil => intro i j b0 h; simp at h
  | cons b rest ih =>
    intro i j b0 h
    cases i with
    | zero =>
      cases j with
      | zero =>
        simp only [List.get?] at h
        cases h
        exact ⟨_, rfl, ⟨rfl, rfl, rfl, rfl, rfl, rfl, rfl⟩⟩
      | succ j => exact ⟨b0, h, sameShape_refl b0⟩
    | succ i =>
      cases j with
      | zero =>
        simp only [List.get?] at h
        cases h
        exact ⟨b, rfl, sameShape_refl b⟩
      | succ j =>
        simp only [List.get?] at h ⊢
        exact ih i j b0 h

theorem applyDeferred_length :
    ∀ dfs bs, (applyDeferred bs dfs).length = bs.length := by
  intro dfs
  induction dfs with
  | nil => intro bs; rfl
  | cons ie rest ih =>
    intro bs
    obtain ⟨i, e⟩ := ie
    rw [applyDeferred, ih, setConnectFrom_length]

/-- The deferred `connect_from` pass keeps the shape of every block. -/
theorem applyDeferred_get :
    ∀ dfs bs j b0, bs.get? j = some b0 →
      ∃ b1, (applyDeferred bs dfs).get? j = some b1 ∧ sameShape b1 b0 := by
  intro dfs
  induction dfs with
  | nil => exact fun bs j b0 h => ⟨b0, h, sameShape_refl b0⟩
  | cons ie rest ih =>
    intro bs j b0 h
    obtain ⟨i, e⟩ := ie
    obtain ⟨b1, h1, hs1⟩ := setConnectFrom_get e bs i j b0 h
    obtain ⟨b2, h2, hs2⟩ := ih _ j b1 h1
    exact ⟨b2, h2, sameShape_trans hs2 hs1⟩

theorem headCandinates_go_length :
    ∀ (rest : List CompilingBlock) (i : Nat),
      (headCandinates.go i rest).length =
        (rest.filter fun b => b.block_plug.isNone).length := by
  intro rest
  induction rest with
  | nil => intro i; rfl
  | cons b rest ih =>
    intro i
    rw [headCandinates.go]
    cases hbp : b.block_plug with
    | none => simp [List.filter_cons, hbp, ih]
    | some p => simp [List.filter_cons, hbp, ih]

/-- Looking the candidate indices back up in the block list yields
exactly the plug-less blocks, in order. -/
theorem headCandinates_go_filterMap :
    ∀ (rest pre : List CompilingBlock),
      (headCandinates.go pre.length rest).filterMap
          (fun j => (pre ++ rest).get? j)
        = rest.filter fun b => b.block_plug.isNone := by
  intro rest
  induction rest with
  | nil => intro pre; rfl
  | cons b rest ih =>
    intro pre
    have hpre : ((pre ++ [b]) ++ rest) = pre ++ b :: rest := by simp
    have hlen : (pre ++ [b]).length = pre.length + 1 := by simp
    have hstep := ih (pre ++ [b])
    rw [hpre, hlen] at hstep
    have hget : (pre ++ b :: rest).get? pre.length = some b := by
      rw [List.get?_append_right (Nat.le_refl _), Nat.sub_self]
      rfl
    rw [headCandinates.go]
    cases hbp : b.block_plug with
    | none =>
      simp only [Option.isSome_none, Bool.false_eq_true, if_false,
        List.filterMap_cons, hget, hstep, List.filter_cons, hbp,
        Option.isNone_none, if_true]
    | some p =>
      simp only [Option.isSome_some, if_true, hstep, List.filter_cons, hbp,
        Option.isNone_some, Bool.false_eq_true, if_false]

theorem headCandinates_filterMap (blocks : List CompilingBlock) :
    (headCandinates blocks).filterMap (fun j => blocks.get? j)
      = blocks.filter fun b => b.block_plug.isNone :=
  headCandinates_go_filterMap blocks []

end TL

namespace TL

/-- **C4.** Root selection of `connect_blocks`: when the number of
plug-less blocks differs from one, linking fails with
`NonUniqueStartBlock` carrying the full list of candidate blocks; and
when linking succeeds, exactly one block had no block-plug and the
returned root is that block — same name, position, size, and plugs
(linking only fills in its `args` and `connect_from`). -/
theorem connect_blocks_root (fuel : Nat) (code : SplitedCode)
    (blocks : List CompilingBlock) :
    ((blocks.filter fun b => b.block_plug.isNone).length ≠ 1 →
        connect_blocks fuel code blocks =
          some (.error (.nonUniqueStartBlock
            (blocks.filter fun b => b.block_plug.isNone))))
    ∧ ∀ root, connect_blocks fuel code blocks = some (.ok root) →
        ∃ b0, blocks.filter (fun b => b.block_plug.isNone) = [b0] ∧
          root.block_plug = Option.none ∧
          root.proc_name = b0.proc_name ∧ root.x = b0.x ∧ root.y = b0.y ∧
          root.width = b0.width ∧ root.height = b0.height ∧
          root.arg_plugs = b0.arg_plugs := by
  have hclen : (headCandinates blocks).length
      = (blocks.filter fun b => b.block_plug.isNone).length :=
    headCandinates_go_length blocks 0
  constructor
  · intro hne
    have hlen : (headCandinates blocks).length ≠ 1 := by rw [hclen]; exact hne
    simp only [connect_blocks]
    rw [if_pos hlen, headCandinates_filterMap]
  · intro root h
    simp only [connect_blocks] at h
    by_cases hc : (headCandinates blocks).length ≠ 1
    · rw [if_pos hc] at h
      simp at h
    · rw [if_neg hc] at h
      obtain ⟨hd, hcands⟩ := List.length_eq_one.mp (not_not.mp hc)
      rw [hcands] at h
      rcases hpb : processBlocks fuel code blocks 0 blocks [] with _ | e <;>
        rw [hpb] at h
      · cases h
      · rcases e with e | ⟨blocks2, deferred⟩ <;> dsimp only at h
        · simp at h
        · rcases hg : (applyDeferred blocks2 deferred).get? hd with _ | root' <;>
            rw [hg] at h
          · cases h
          · simp only [Option.some.injEq, Except.ok.injEq] at h
            subst h
            obtain ⟨hlen2, hget2⟩ := processBlocks_shape fuel code blocks blocks 0 []
              (blocks2, deferred) hpb
            cases hb0 : blocks.get? hd with
            | none =>
              exfalso
              have hge := List.get?_eq_none.mp hb0
              have hnone : (applyDeferred blocks2 deferred).get? hd = Option.none :=
                List.get?_eq_none.mpr (by rw [applyDeferred_length, hlen2]; exact hge)
              rw [hnone] at hg
              cases hg
            | some b0 =>
              obtain ⟨b1, hb1, hs1⟩ := hget2 hd b0 hb0
              obtain ⟨b2, hb2, hs2⟩ := applyDeferred_get deferred blocks2 hd b1 hb1
              have hroot : b2 = root' := Option.some.inj (hb2.symm.trans hg)
              subst hroot
              obtain ⟨e1, e2, e3, e4, e5, e6, e7⟩ := sameShape_trans hs2 hs1
              have hfm := headCandinates_filterMap blocks
              rw [hcands] at hfm
              have hfilter : blocks.filter (fun b => b.block_plug.isNone) = [b0] := by
                rw [← hfm]
                have hb0g := hb0
                rw [List.get?_eq_getElem?] at hb0g
                simp [hb0g]
              have hb0none : b0.block_plug = Option.none := by
                have hmem : b0 ∈ blocks.filter fun b => b.block_plug.isNone := by
                  rw [hfilter]
                  exact List.mem_singleton.mpr rfl
                exact Option.isNone_iff_eq_none.mp (List.mem_filter.mp hmem).2
              exact ⟨b0, hfilter, e6.trans hb0none, e1, e2, e3, e4, e5, e7⟩

/-- Decidable equality of `Except` results, for evaluating `connect_blocks`
on concrete grids. -/
instance {e a : Type} [DecidableEq e] [DecidableEq a] : DecidableEq (Except e a)
  | .error x, .error y =>
    if h : x = y then isTrue (by rw [h])
    else isFalse (by intro hc; cases hc; exact h rfl)
  | .error x, .ok y => isFalse (by intro hc; cases hc)
  | .ok x, .error y => isFalse (by intro hc; cases hc)
  | .ok x, .ok y =>
    if h : x = y then isTrue (by rw [h])
    else isFalse (by intro hc; cases hc; exact h rfl)

/-- The grid of the repository's `two_connect` test: an `abc` box whose
bottom plug is wired to the block-plug of a `def` box. -/
def twoConnectCode : SplitedCode :=
  split_code ⟨fun _ => 1, fun _ => 1⟩ .mono
    ["    ".toList,
     "    ┌───────┐".toList,
     "    │ abc   │    ".toList,
     "    └───┬───┘   ".toList,
     "        │   ".toList,
     "    ┌───┴──┐".toList,
     "    │ def  │    ".toList,
     "    └──────┘   ".toList]

/-- The blocks `find_blocks` finds on `twoConnectCode`. -/
def twoConnectBlocks : List CompilingBlock :=
  [{ proc_name := ['a', 'b', 'c'], x := 4, y := 1, width := 9, height := 3,
     block_plug := Option.none, connect_from := Option.none,
     arg_plugs := [⟨8, 3, false, .down⟩], args := [] },
   { proc_name := ['d', 'e', 'f'], x := 4, y := 5, width := 8, height := 3,
     block_plug := some ⟨8, 5, .none⟩, connect_from := Option.none,
     arg_plugs := [], args := [] }]

/-- Two plug-less blocks, as in the repository's
`error_non_unique_start_block` test. -/
def twoRootsBlocks : List CompilingBlock :=
  [{ proc_name := ['a', 'b', 'c'], x := 4, y := 1, width := 9, height := 3,
     block_plug := Option.none, connect_from := Option.none,
     arg_plugs := [], args := [] },
   { proc_name := ['d', 'e', 'f'], x := 4, y := 4, width := 8, height := 3,
     block_plug := Option.none, connect_from := Option.none,
     arg_plugs := [], args := [] }]

/-- The root `connect_blocks` returns on the `two_connect` grid: the
`abc` block with its argument edge filled in. -/
def twoConnectRoot : CompilingBlock :=
  { proc_name := ['a', 'b', 'c'], x := 4, y := 1, width := 9, height := 3,
    block_plug := Option.none, connect_from := Option.none,
    arg_plugs := [⟨8, 3, false, .down⟩],
    args := [⟨0, ⟨8, 3, false, .down⟩, [⟨8, 4, .down⟩], 1⟩] }

/-- `find_blocks` on the `two_connect` grid finds exactly the two
expected boxes (the repository's test vector). -/
example : find_blocks 100 twoConnectCode = twoConnectBlocks := by decide

/-- Witness for `connect_blocks_root`: two plug-less blocks trigger the
error with both candidates listed; on the `two_connect` grid linking
succeeds and returns the `abc` block as root. -/
theorem connect_blocks_root_witness :
    connect_blocks 1 ⟨[]⟩ twoRootsBlocks =
      some (.error (.nonUniqueStartBlock
        (twoRootsBlocks.filter fun b => b.block_plug.isNone)))
    ∧ ∃ b0, twoConnectBlocks.filter (fun b => b.block_plug.isNone) = [b0] ∧
        twoConnectRoot.block_plug = Option.none ∧
        twoConnectRoot.proc_name = b0.proc_name ∧ twoConnectRoot.x = b0.x ∧
        twoConnectRoot.y = b0.y ∧ twoConnectRoot.width = b0.width ∧
        twoConnectRoot.height = b0.height ∧
        twoConnectRoot.arg_plugs = b0.arg_plugs :=
  ⟨(connect_blocks_root 1 ⟨[]⟩ twoRootsBlocks).1 (by decide),
   (connect_blocks_root 100 twoConnectCode twoConnectBlocks).2 twoConnectRoot
     (by decide)⟩

end TL

namespace Ev

/-! ## The evaluator (src/src: structs/block.rs, structs/exec_env.rs,
executor/predefined.rs)

Strings are `List Char`.  Rust panics are `Option.none` in an outer
`Option` layer.  A Rust `Vec` used as a stack (the scope chain and the
stack of chains) is a `List` whose HEAD is the Rust `last()` element.
`HashMap` namespaces are association lists (`nsInsert` overwrites the
existing key), which only reorders iteration — no claim depends on
iteration order. -/

/-- `Block` (structs/block.rs): a call node. -/
inductive Block where
  | mk (proc_name : List Char) (args : List (Bool × Block)) (quote : Bool)

/-- The `proc_name` field. -/
def Block.proc_name : Block → List Char
  | .mk n _ _ => n

/-- The `args` field. -/
def Block.args : Block → List (Bool × Block)
  | .mk _ a _ => a

/-- The `quote` field. -/
def Block.quote : Block → Bool
  | .mk _ _ q => q

/-- `cloned.quote = false` of the quote branch. -/
def Block.withQuote : Block → Bool → Block
  | .mk n a _, q => .mk n a q

/-- `Literal` (structs/literal.rs). -/
inductive Literal where
  | int (i : Int)
  | str (s : List Char)
  | boolean (b : Bool)
  | block (b : Block)
  | list (l : List Literal)
  | void

/-- `if let Literal::List(_) = result` as a Boolean. -/
def Literal.isList : Literal → Bool
  | .list _ => true
  | _ => false

mutual

/-- `Literal::to_string` (structs/literal.rs). -/
def litToString : Literal → List Char
  | .int i => (toString i).toList
  | .str s => s
  | .boolean b => if b then "true".toList else "false".toList
  | .block b => "Block ".toList ++ b.proc_name
  | .list l => '[' :: litListToString l ++ [']']
  | .void => "<Void>".toList
termination_by l => (sizeOf l, 0)
decreasing_by all_goals apply Prod.Lex.left <;> simp <;> omega

/-- One list element: strings are rendered with `{s:?}`, i.e. quoted
(the model adds the surrounding quotes; `{:?}` escape sequences inside
the string are not modelled — no theorem feeds a string needing them). -/
def litElemToString : Literal → List Char
  | .str s => '"' :: s ++ ['"']
  | l => litToString l
termination_by l => (sizeOf l, 1)
decreasing_by all_goals apply Prod.Lex.right <;> omega

/-- `join(", ")` over the rendered elements. -/
def litListToString : List Literal → List Char
  | [] => []
  | [x] => litElemToString x
  | x :: y :: xs => litElemToString x ++ ", ".toList ++ litListToString (y :: xs)
termination_by l => (sizeOf l, 2)
decreasing_by all_goals apply Prod.Lex.left <;> simp <;> omega

end

/-- `NativeProc`: the deep-embedded predefined procedures the claims
exercise (`FnProcedure` function pointers in predefined.rs). -/
inductive NativeProc where
  | div
  | listing

/-- `ProcedureOrVar` (exec_env.rs). -/
inductive ProcOrVar where
  | fnProcedure (p : NativeProc)
  | blockProcedure (b : Block)
  | var (v : Literal)

/-- `ExecuteScopeBody` (exec_env.rs): include-paths and the name table.
(`namespace` is a Lean keyword, hence the field name `ns`.) -/
structure ExecuteScopeBody where
  paths : List (List Char)
  ns : List (List Char × ProcOrVar)

/-- `ExecuteEnv.scopes : Vec<Vec<ExecuteScope>>` — a stack of scope
chains; the head chain is the current one, the head scope of a chain is
the innermost. -/
structure ExecuteEnv where
  scopes : List (List ExecuteScopeBody)

/-- The host services `ExecuteEnv` carries as boxed closures; only the
`includer` is relevant to the claims. -/
structure Externals where
  includer : List (List Char) → Except (List Char) Block

/-- `ProcBind` (exec_env.rs): `Namespace(scope)` or `Literal(lit)`. -/
inductive ProcBind where
  | scope (s : ExecuteScopeBody)
  | literal (l : Literal)

/-- `BlockResult` (structs/block.rs). -/
inductive BlockResult where
  | success (l : Literal)
  | error
  | unreached

/-- `BlockErrorTree` (structs/block.rs). -/
inductive BlockErrorTree where
  | mk (result : BlockResult) (expand : Bool) (children : List BlockErrorTree)
      (proc_name : List Char)

/-- `BlockError` (structs/block.rs). -/
inductive BlockError where
  | mk (root : BlockErrorTree) (caused_by : Option BlockError) (msg : List Char)

/-- `ProcedureError` (exec_env.rs). -/
inductive ProcedureError where
  | causedByBlockExec (e : BlockError)
  | otherError (msg : List Char)

end Ev

namespace Ev

/-- `BlockError.root`. -/
def BlockError.root : BlockError → BlockErrorTree
  | .mk r _ _ => r

/-- `BlockError.caused_by`. -/
def BlockError.caused_by : BlockError → Option BlockError
  | .mk _ c _ => c

/-- `BlockError.msg`. -/
def BlockError.msg : BlockError → List Char
  | .mk _ _ m => m

/-- `BlockErrorTree.result`. -/
def BlockErrorTree.result : BlockErrorTree → BlockResult
  | .mk r _ _ _ => r

/-- `BlockErrorTree.expand`. -/
def BlockErrorTree.expand : BlockErrorTree → Bool
  | .mk _ e _ _ => e

/-- `BlockErrorTree.proc_name`. -/
def BlockErrorTree.tree_name : BlockErrorTree → List Char
  | .mk _ _ _ n => n

/-- `err.root.expand = flag` (the assignment in `create_inherite_error`). -/
def BlockErrorTree.withExpand : BlockErrorTree → Bool → BlockErrorTree
  | .mk r _ ch n, e => .mk r e ch n

/-- `to_int` (exec_env.rs): the regex `^(\+|-)?[0-9]+$`, then
`parse::<i64>().ok()` — `None` outside the `i64` range. -/
def to_int (s : List Char) : Option Int :=
  match s with
  | [] => Option.none
  | c :: rest =>
    let digits := if c = '+' || c = '-' then rest else s
    if digits ≠ [] ∧ digits.all fun d => '0' ≤ d ∧ d ≤ '9' then
      let n : Nat := digits.foldl (fun acc d => acc * 10 + (d.toNat - '0'.toNat)) 0
      if c = '-' then
        if n ≤ 2 ^ 63 then some (-(n : Int)) else Option.none
      else if n ≤ 2 ^ 63 - 1 then some (n : Int) else Option.none
    else Option.none

/-- `to_bool` (exec_env.rs): Rust `str::parse::<bool>` accepts exactly
`true` and `false`. -/
def to_bool (s : List Char) : Option Bool :=
  if s = "true".toList then some true
  else if s = "false".toList then some false
  else Option.none

/-- `HashMap::insert`: overwrite the key if present, else add it. -/
def nsInsert : List (List Char × ProcOrVar) → List Char → ProcOrVar →
    List (List Char × ProcOrVar)
  | [], k, v => [(k, v)]
  | (k', v') :: rest, k, v =>
    if k' = k then (k, v) :: rest else (k', v') :: nsInsert rest k v

/-- `HashMap::get`. -/
def nsGet : List (List Char × ProcOrVar) → List Char → Option ProcOrVar
  | [], _ => Option.none
  | (k', v') :: rest, k => if k' = k then some v' else nsGet rest k

/-- `get_last_scopes` — `unwrap` panics on an empty stack of chains. -/
def getLastScopes (env : ExecuteEnv) : Option (List ExecuteScopeBody) :=
  env.scopes.head?

/-- Write the current chain back (`last_mut`). -/
def setLastScopes (env : ExecuteEnv) (c : List ExecuteScopeBody) : Option ExecuteEnv :=
  match env.scopes with
  | [] => Option.none
  | _ :: rest => some ⟨c :: rest⟩

/-- `get_last_scope` — the innermost scope of the current chain. -/
def getLastScope (env : ExecuteEnv) : Option ExecuteScopeBody :=
  match getLastScopes env with
  | Option.none => Option.none
  | some chain => chain.head?

/-- Replace the innermost scope of the current chain. -/
def setLastScope (env : ExecuteEnv) (s : ExecuteScopeBody) : Option ExecuteEnv :=
  match getLastScopes env with
  | Option.none => Option.none
  | some chain =>
    match chain with
    | [] => Option.none
    | _ :: outer => setLastScopes env (s :: outer)

/-- `new_scope`: push a scope with the innermost scope's paths and an
empty namespace. -/
def new_scope (env : ExecuteEnv) : Option ExecuteEnv :=
  match getLastScopes env with
  | Option.none => Option.none
  | some chain =>
    match chain.head? with
    | Option.none => Option.none
    | some top => setLastScopes env (⟨top.paths, []⟩ :: chain)

/-- `back_scope`: pop the innermost scope; panics when the chain would
become empty. -/
def back_scope (env : ExecuteEnv) : Option ExecuteEnv :=
  match getLastScopes env with
  | Option.none => Option.none
  | some chain =>
    if chain.length ≤ 1 then Option.none
    else setLastScopes env chain.tail

/-- `freeze_scope`: pop and return the innermost scope (same panic
condition as `back_scope`). -/
def freeze_scope (env : ExecuteEnv) : Option (ExecuteScopeBody × ExecuteEnv) :=
  match getLastScopes env with
  | Option.none => Option.none
  | some chain =>
    if chain.length ≤ 1 then Option.none
    else
      match chain with
      | [] => Option.none
      | s :: outer =>
        match setLastScopes env outer with
        | Option.none => Option.none
        | some env' => some (s, env')

/-- `reload_scope`: push a frozen scope back. -/
def reload_scope (env : ExecuteEnv) (s : ExecuteScopeBody) : Option ExecuteEnv :=
  match getLastScopes env with
  | Option.none => Option.none
  | some chain => setLastScopes env (s :: chain)

/-- `new_scopes` (exec_env.rs:109-111): push a whole new chain onto the
stack of chains. -/
def new_scopes (env : ExecuteEnv) (chain : List ExecuteScopeBody) : ExecuteEnv :=
  ⟨chain :: env.scopes⟩

/-- `back_scopes`: pop the current chain (`unwrap` on the popped value). -/
def back_scopes (env : ExecuteEnv) : Option ExecuteEnv :=
  match env.scopes with
  | [] => Option.none
  | _ :: rest => some ⟨rest⟩

/-- `find_scope`: innermost-first search of the current chain for a
scope whose namespace contains the name. -/
def find_scope (env : ExecuteEnv) (name : List Char) : Option (Option ExecuteScopeBody) :=
  match getLastScopes env with
  | Option.none => Option.none
  | some chain => some (chain.find? fun s => (nsGet s.ns name).isSome)

/-- `bind_name` (exec_env.rs:133-149).  A name bound in some scope binds
to that scope; otherwise a `"`-delimited name is a string literal — the
slice `name[1..name.len()-1]` panics for the single-character name `"`
— then integer, boolean, and empty (`Void`) literals; anything else is
`None` (undefined). -/
def bind_name (env : ExecuteEnv) (name : List Char) : Option (Option ProcBind) :=
  match find_scope env name with
  | Option.none => Option.none
  | some (some sc) => some (some (.scope sc))
  | some Option.none =>
    if name.head? = some '"' ∧ name.getLast? = some '"' then
      if 2 ≤ name.length then
        some (some (.literal (.str ((name.drop 1).dropLast))))
      else Option.none
    else
      match to_int name with
      | some i => some (some (.literal (.int i)))
      | Option.none =>
        match to_bool name with
        | some b => some (some (.literal (.boolean b)))
        | Option.none =>
          if name = [] then some (some (.literal .void)) else some Option.none

/-- `defset_args`: bind `$args` and `$0`, `$1`, … in the innermost
scope. -/
def defset_args (env : ExecuteEnv) (args : List Literal) : Option ExecuteEnv :=
  match getLastScope env with
  | Option.none => Option.none
  | some top =>
    let ns1 := nsInsert top.ns "$args".toList (.var (.list args))
    let ns2 := (args.enum.foldl
      (fun ns p => nsInsert ns ('$' :: (toString p.1).toList) (.var p.2)) ns1)
    setLastScope env ⟨top.paths, ns2⟩

/-- `format!("Undefined Proc Name {}", name)`. -/
def undefinedMsg (name : List Char) : List Char :=
  "Undefined Proc Name ".toList ++ name

/-- The expand-type error text of `execute_without_scope`. -/
def expandErrMsg (v : Literal) : List Char :=
  "\"@\" needs the arg is a list literal. (Got ".toList ++ litToString v ++ ")".toList

/-- `format!("Procedure {}: Length of args must be {}. (Got {})", ..)`. -/
def arityMsg (name : List Char) (want got : Nat) : List Char :=
  "Procedure ".toList ++ name ++ ": Length of args must be ".toList ++
    (toString want).toList ++ ". (Got ".toList ++ (toString got).toList ++ ")".toList

/-- `type_error_msg` (predefined.rs). -/
def typeErrMsg (name : List Char) (index : Nat) (actually : Literal)
    (expected : List Char) : List Char :=
  "Procedure ".toList ++ name ++ ": $arg[".toList ++ (toString index).toList ++
    "] must be ".toList ++ expected ++ ". (Got ".toList ++ litToString actually ++
    ")".toList

/-- The children of `create_error`: one node per declared argument,
`Success` with its literal while results exist (`pure_exec_args.get(i)`),
`Unreached` beyond. -/
def createErrorChildren : List (Bool × Block) → List Literal → List BlockErrorTree
  | [], _ => []
  | (fl, c) :: args, [] =>
    .mk .unreached fl [] c.proc_name :: createErrorChildren args []
  | (fl, c) :: args, r :: rs =>
    .mk (.success r) fl [] c.proc_name :: createErrorChildren args rs

/-- `create_error` (structs/block.rs). -/
def createError (b : Block) (caused_by : Option BlockError) (msg : List Char)
    (pure_exec_args : List Literal) : BlockError :=
  .mk (.mk .error false (createErrorChildren b.args pure_exec_args) b.proc_name)
    caused_by msg

/-- The `Success` prefix of `create_inherite_error`: `self.args[i]` for
`i < pure_exec_args.len()` — the indexing panics if the results outnumber
the declared arguments. -/
def inheritChildren : List (Bool × Block) → List Literal → Option (List BlockErrorTree)
  | _, [] => some []
  | [], _ :: _ => Option.none
  | (fl, c) :: args, r :: rs =>
    match inheritChildren args rs with
    | Option.none => Option.none
    | some ts => some (.mk (.success r) fl [] c.proc_name :: ts)

/-- `create_inherite_error` (structs/block.rs:70-106): overwrite the
failing child's root `expand` with `self.args[self.args.len()-1].0` —
the LAST argument's flag (panics on empty `args`) — then assemble
`Success` prefix, the failing child's tree, and `Unreached` nodes for
the arguments after it (`pure_exec_args.len()+1 ..`). -/
def createInheriteError (b : Block) (err : BlockError) (pure_exec_args : List Literal) :
    Option BlockError :=
  match b.args.getLast? with
  | Option.none => Option.none
  | some (lastFl, _) =>
    match inheritChildren b.args pure_exec_args with
    | Option.none => Option.none
    | some pref =>
      let mid := err.root.withExpand lastFl
      let suffix := (b.args.drop (pure_exec_args.length + 1)).map
        fun p => BlockErrorTree.mk .unreached p.1 [] p.2.proc_name
      some (.mk (.mk .error false (pref ++ mid :: suffix) b.proc_name)
        err.caused_by err.msg)

/-- The `expanded_args` flat-map of `execute_without_scope`: an expand
argument contributes its list's elements (the non-list case is
`unreachable!()` there — the loop has already rejected it; the model
returns `[]` on that dead branch), an ordinary one contributes itself. -/
def expandedArgs : List (Bool × Block) → List Literal → List Literal
  | _, [] => []
  | [], _ :: _ => []
  | (fl, _) :: args, r :: rs =>
    (if fl then match r with | .list l => l | _ => [] else [r]) ++ expandedArgs args rs

/-- `parent` extraction of `include` (exec_env.rs:251-256): the path up
to the last `/`, or empty. -/
def parentPath (path : List Char) : List Char :=
  match path.reverse.findIdx? (· = '/') with
  | Option.none => []
  | some j => path.take (path.length - 1 - j)

/-- Truncated `i64` division, the meaning of Rust `a / b` when it does
not panic. -/
def i64Div (a b : Int) : Int := Int.tdiv a b

/-- The `FnProcedure` bodies (predefined.rs, via `add_map!`): arity
check, per-index `int` checks, then the operation.  `a / b` panics on
`b = 0` and on `i64::MIN / -1`; `listing` collects all its arguments
into a list. -/
def applyNative : NativeProc → List Literal → Option (Except ProcedureError Literal)
  | .div, argv =>
    match argv with
    | [a0, a1] =>
      match a0 with
      | .int a =>
        match a1 with
        | .int b =>
          if b = 0 then Option.none
          else if a = -(2 ^ 63) ∧ b = -1 then Option.none
          else some (.ok (.int (i64Div a b)))
        | _ => some (.error (.otherError (typeErrMsg "/".toList 1 a1 "int".toList)))
      | _ => some (.error (.otherError (typeErrMsg "/".toList 0 a0 "int".toList)))
    | _ => some (.error (.otherError (arityMsg "/".toList 2 argv.length)))
  | .listing, argv => some (.ok (.list argv))

end Ev

namespace Ev

/-- The `.map_err(...)` suffix of `execute_without_scope`: wrap the
`execute_procedure` outcome into the block's error tree (the success and
panic cases pass through). -/
def procWrap (b : Block) (pure_exec_args : List Literal)
    (r : Option (Except ProcedureError Literal × ExecuteEnv)) :
    Option (Except BlockError Literal × ExecuteEnv) :=
  match r with
  | Option.none => Option.none
  | some (.ok v, env) => some (.ok v, env)
  | some (.error (.causedByBlockExec be), env) =>
    some (.error (createError b (some be) be.msg pure_exec_args), env)
  | some (.error (.otherError m), env) =>
    some (.error (createError b Option.none m pure_exec_args), env)

mutual

/-- `Block::execute` (structs/block.rs:11-17): `new_scope`, the body,
then `back_scope` — which the `?` operator skips when the body fails. -/
def execute : Nat → Externals → Block → ExecuteEnv →
    Option (Except BlockError Literal × ExecuteEnv)
  | 0, _, _, _ => Option.none
  | fuel + 1, ext, b, env =>
    match new_scope env with
    | Option.none => Option.none
    | some env1 =>
      match executeWithoutScope fuel ext b env1 with
      | Option.none => Option.none
      | some (.error e, env2) => some (.error e, env2)
      | some (.ok v, env2) =>
        match back_scope env2 with
        | Option.none => Option.none
        | some env3 => some (.ok v, env3)
termination_by fuel ext b env => (fuel, 0, 0)

/-- `Block::execute_without_scope` (structs/block.rs:19-68).  The quote
branch returns the block itself with `quote` cleared as a literal (the
call `exec_env.block_to_literal` it goes through is absent from this
tree's exec_env.rs; the branch follows the same clone-with-quote-false
branch of literal.rs — no claim exercises it).  Otherwise: evaluate the
arguments left to right, splice the expand arguments, and call
`execute_procedure`, wrapping its error. -/
def executeWithoutScope : Nat → Externals → Block → ExecuteEnv →
    Option (Except BlockError Literal × ExecuteEnv)
  | 0, _, _, _ => Option.none
  | fuel + 1, ext, b, env =>
    if b.quote then some (.ok (.block (b.withQuote false)), env)
    else
      match evalArgs (fuel + 1) ext b b.args [] env with
      | Option.none => Option.none
      | some (.error e, env') => some (.error e, env')
      | some (.ok rs, env') =>
        procWrap b rs (executeProcedure fuel ext b.proc_name (expandedArgs b.args rs) env')
termination_by fuel ext b env => (fuel, 1, 0)

/-- The argument loop of `execute_without_scope` (structs/block.rs:27-45):
the first failing child stops the loop via `create_inherite_error`; an
expand child whose value is not a list stops it via `create_error` with
the expand message; otherwise its value is pushed. -/
def evalArgs : Nat → Externals → Block → List (Bool × Block) → List Literal →
    ExecuteEnv → Option (Except BlockError (List Literal) × ExecuteEnv)
  | 0, _, _, _, _, _ => Option.none
  | _ + 1, _, _, [], acc, env => some (.ok acc, env)
  | fuel + 1, ext, parent, (fl, c) :: rest, acc, env =>
    match execute fuel ext c env with
    | Option.none => Option.none
    | some (.error err, env') =>
      match createInheriteError parent err acc with
      | Option.none => Option.none
      | some be => some (.error be, env')
    | some (.ok v, env') =>
      if fl && !v.isList then
        some (.error (createError parent Option.none (expandErrMsg v) acc), env')
      else evalArgs (fuel + 1) ext parent rest (acc ++ [v]) env'
termination_by fuel ext parent args acc env => (fuel, 0, args.length + 1)

/-- `execute_procedure` (exec_env.rs:151-157): resolve the name with
`bind_name` (`None` becomes the Undefined Proc Name error) and run the
binding. -/
def executeProcedure : Nat → Externals → List Char → List Literal → ExecuteEnv →
    Option (Except ProcedureError Literal × ExecuteEnv)
  | 0, _, _, _, _ => Option.none
  | fuel + 1, ext, name, argv, env =>
    match bind_name env name with
    | Option.none => Option.none
    | some Option.none => some (.error (.otherError (undefinedMsg name)), env)
    | some (some bind) => executeProcedureWithBind (fuel + 1) ext name argv bind env
termination_by fuel ext name argv env => (fuel, 2, 0)

/-- `execute_procedure_with_bind` (exec_env.rs:159-183): a scope binding
runs the named entry there — a native procedure, a block procedure (the
two-argument `execute_without_scope(self, defset_args)` call this tree's
block.rs does not declare; modelled as `defset_args` followed by the
scopeless body, per the call shape), or a variable; a literal binding
returns the literal.  The in-scope lookup failing is `unreachable!()`. -/
def executeProcedureWithBind : Nat → Externals → List Char → List Literal →
    ProcBind → ExecuteEnv → Option (Except ProcedureError Literal × ExecuteEnv)
  | 0, _, _, _, _, _ => Option.none
  | _ + 1, _, _, _, .literal l, env => some (.ok l, env)
  | fuel + 1, ext, name, argv, .scope sc, env =>
    match nsGet sc.ns name with
    | Option.none => Option.none
    | some (.var v) => some (.ok v, env)
    | some (.fnProcedure p) =>
      match applyNative p argv with
      | Option.none => Option.none
      | some (.ok v) => some (.ok v, env)
      | some (.error e) => some (.error e, env)
    | some (.blockProcedure blk) =>
      match defset_args env argv with
      | Option.none => Option.none
      | some env1 =>
        match executeWithoutScope fuel ext blk env1 with
        | Option.none => Option.none
        | some (.error e, env') => some (.error (.causedByBlockExec e), env')
        | some (.ok v, env') => some (.ok v, env')
termination_by fuel ext name argv bind env => (fuel, 1, 1)

end

/-- `ExecuteEnv::include` (exec_env.rs:249-272): extract the parent
path, compile via the includer (its error becomes `OtherError`), then
swap the innermost scope for a fresh one — `freeze_scope`, `new_scope`
(paths copied from the next-outer scope), push `parent` — run the
included root scopelessly, and restore.  A body error propagates through
`?` before `back_scope`/`reload_scope` run. -/
def includeProc (fuel : Nat) (ext : Externals) (path : List Char) (env : ExecuteEnv) :
    Option (Except ProcedureError Literal × ExecuteEnv) :=
  let parent := parentPath path
  match getLastScope env with
  | Option.none => Option.none
  | some top =>
    match ext.includer (top.paths ++ [path]) with
    | .error m => some (.error (.otherError m), env)
    | .ok blk =>
      match freeze_scope env with
      | Option.none => Option.none
      | some (freezed, env1) =>
        match new_scope env1 with
        | Option.none => Option.none
        | some env2 =>
          match getLastScope env2 with
          | Option.none => Option.none
          | some fresh =>
            match setLastScope env2 ⟨fresh.paths ++ [parent], fresh.ns⟩ with
            | Option.none => Option.none
            | some env3 =>
              match executeWithoutScope fuel ext blk env3 with
              | Option.none => Option.none
              | some (.error e, env4) => some (.error (.causedByBlockExec e), env4)
              | some (.ok v, env4) =>
                match back_scope env4 with
                | Option.none => Option.none
                | some env5 =>
                  match reload_scope env5 freezed with
                  | Option.none => Option.none
                  | some env6 => some (.ok v, env6)

end Ev

namespace Ev

/-- The two entries of `predefined_procs` the claims exercise. -/
def divListingNs : List (List Char × ProcOrVar) :=
  [("/".toList, .fnProcedure .div), ("listing".toList, .fnProcedure .listing)]

/-- A root environment: one chain, one scope holding `divListingNs`. -/
def baseEnv : ExecuteEnv := ⟨[[⟨[], divListingNs⟩]]⟩

/-- An includer that fails on every path. -/
def noExt : Externals := ⟨fun _ => .error []⟩

/-- **C8.** Division: calling the predefined `/` on `Int` arguments with
divisor `0` evaluates `a / b` in Rust, which panics — the model returns
`Option.none` (process abort) instead of any `Err` evaluation error; for
a non-zero divisor (excluding the `i64::MIN / -1` overflow panic) the
call returns the truncated quotient. -/
theorem div_by_zero_panics (fuel : Nat) (ext : Externals) (env : ExecuteEnv)
    (sc : ExecuteScopeBody) (a b : Int)
    (hsc : find_scope env "/".toList = some (some sc))
    (hdiv : nsGet sc.ns "/".toList = some (.fnProcedure .div)) :
    executeProcedure (fuel + 1) ext "/".toList [.int a, .int 0] env = Option.none
    ∧ (b ≠ 0 → ¬(a = -(2 ^ 63) ∧ b = -1) →
        executeProcedure (fuel + 1) ext "/".toList [.int a, .int b] env
          = some (.ok (.int (i64Div a b)), env)) := by
  have hbind : bind_name env "/".toList = some (some (.scope sc)) := by
    rw [bind_name, hsc]
  constructor
  · simp only [executeProcedure, hbind, executeProcedureWithBind, hdiv, applyNative,
      eq_self_iff_true, if_true]
  · intro hb hover
    simp only [executeProcedure, hbind, executeProcedureWithBind, hdiv, applyNative,
      if_neg hb, if_neg hover]

/-- Witness for `div_by_zero_panics`: in `baseEnv`, `7 / 0` aborts and
`7 / 2 = 3`. -/
theorem div_by_zero_panics_witness :
    executeProcedure 3 noExt "/".toList [.int 7, .int 0] baseEnv = Option.none
    ∧ executeProcedure 3 noExt "/".toList [.int 7, .int 2] baseEnv
        = some (.ok (.int (i64Div 7 2)), baseEnv) := by
  have h := div_by_zero_panics 2 noExt baseEnv ⟨[], divListingNs⟩ 7 2 rfl rfl
  exact ⟨h.1, h.2 (by decide) (by decide)⟩

/-- **C10.** `bind_name` on quoted names, when no scope binds the name:
the single-character name `"` makes the slice `name[1..name.len()-1]`
panic (modelled `Option.none`), and this panic propagates through
`execute_procedure` instead of an Undefined Proc Name error; every name
`"s"` of length at least 2 binds to the string literal `s`. -/
theorem bind_name_quote (env : ExecuteEnv) (s : List Char)
    (h1 : find_scope env ['"'] = some Option.none)
    (h2 : find_scope env ('"' :: s ++ ['"']) = some Option.none) :
    bind_name env ['"'] = Option.none
    ∧ bind_name env ('"' :: s ++ ['"']) = some (some (.literal (.str s)))
    ∧ ∀ fuel ext argv, executeProcedure (fuel + 1) ext ['"'] argv env = Option.none := by
  have hq : bind_name env ['"'] = Option.none := by
    rw [bind_name, h1]
    rw [if_pos ⟨rfl, rfl⟩]
    rw [if_neg (by simp)]
  refine ⟨hq, ?_, ?_⟩
  · rw [bind_name, h2]
    have hcat : ('"' :: s ++ ['"']).getLast? = some '"' := by
      show (('"' :: s) ++ ['"']).getLast? = some '"'
      rw [List.getLast?_concat]
    rw [if_pos ⟨rfl, hcat⟩]
    rw [if_pos (by simp)]
    have hinner : (('"' :: s ++ ['"']).drop 1).dropLast = s := by
      show (s ++ ['"']).dropLast = s
      exact List.dropLast_concat
    rw [hinner]
  · intro fuel ext argv
    simp only [executeProcedure, hq]

/-- Witness for `bind_name_quote`: the empty root scope; `"ab"` binds to
the string `ab` and `"` aborts, also through `execute_procedure`. -/
theorem bind_name_quote_witness :
    bind_name ⟨[[⟨[], []⟩]]⟩ ['"'] = Option.none
    ∧ bind_name ⟨[[⟨[], []⟩]]⟩ ('"' :: ['a', 'b'] ++ ['"'])
        = some (some (.literal (.str ['a', 'b'])))
    ∧ executeProcedure 3 noExt ['"'] [] ⟨[[⟨[], []⟩]]⟩ = Option.none :=
  ⟨(bind_name_quote ⟨[[⟨[], []⟩]]⟩ ['a', 'b'] rfl rfl).1,
   (bind_name_quote ⟨[[⟨[], []⟩]]⟩ ['a', 'b'] rfl rfl).2.1,
   (bind_name_quote ⟨[[⟨[], []⟩]]⟩ ['a', 'b'] rfl rfl).2.2 2 noExt []⟩

end Ev

namespace Ev

/-- An includer resolving exactly the path list `["p"]` to the one-node
program `x`. -/
def xIncluder : Externals :=
  ⟨fun ps => if ps = ["p".toList] then .ok (.mk "x".toList [] false)
    else .error "bad".toList⟩

/-- A chain with an empty innermost scope and an outer scope binding
`x = 42`. -/
def outerVarEnv : ExecuteEnv :=
  ⟨[[⟨[], []⟩, ⟨[], [("x".toList, .var (.int 42))]⟩]]⟩

/-- Modelled from the spec: the included program runs with a fresh scope
chain pushed as a new entry on the stack of chains
(`new_scopes`/`back_scopes`), so no scope of the includer is visible;
the fresh chain's only scope carries the parent path for nested
resolution, and the root value is returned. -/
def includeSpecced (fuel : Nat) (ext : Externals) (path : List Char)
    (env : ExecuteEnv) : Option (Except ProcedureError Literal × ExecuteEnv) :=
  match getLastScope env with
  | Option.none => Option.none
  | some top =>
    match ext.includer (top.paths ++ [path]) with
    | .error m => some (.error (.otherError m), env)
    | .ok blk =>
      match executeWithoutScope fuel ext blk
          (new_scopes env [⟨[parentPath path], []⟩]) with
      | Option.none => Option.none
      | some (.error e, env3) => some (.error (.causedByBlockExec e), env3)
      | some (.ok v, env3) =>
        match back_scopes env3 with
        | Option.none => Option.none
        | some env4 => some (.ok v, env4)

/-- Counterexample to **C3**: the included program `x` reads the binding
`x = 42` of an OUTER scope of the includer's chain, and `include`
returns `Ok 42` — `ExecuteEnv::include` only swaps the innermost scope
of the current chain (`freeze_scope`/`new_scope`) and never pushes a new
chain-stack entry (`new_scopes` is not called).  Under the spec's
fresh-chain semantics (`includeSpecced`) the same call cannot resolve
`x` and fails. -/
theorem include_reads_outer_scope_cx :
    includeProc 10 xIncluder "p".toList outerVarEnv
      = some (.ok (.int 42), outerVarEnv)
    ∧ includeSpecced 10 xIncluder "p".toList outerVarEnv
      = some (.error (.causedByBlockExec
          (.mk (.mk .error false [] "x".toList) Option.none
            ("Undefined Proc Name x".toList))),
          ⟨[⟨[[]], []⟩] :: outerVarEnv.scopes⟩) := by
  constructor <;>
    simp [includeProc, includeSpecced, execute, executeWithoutScope, evalArgs,
      executeProcedure, executeProcedureWithBind, procWrap, bind_name, find_scope,
      getLastScopes, getLastScope, new_scope, back_scope, setLastScopes, setLastScope,
      freeze_scope, reload_scope, new_scopes, back_scopes, nsGet, to_int, to_bool,
      expandedArgs, xIncluder, outerVarEnv, parentPath, undefinedMsg, createError,
      createErrorChildren, applyNative, Block.quote, Block.proc_name, Block.args]

/-- **C3** (amended): `include` does not create a new chain-stack entry;
it replaces the caller's innermost scope `s0` with a fresh scope (paths
of the next-outer scope `s1` plus the parent path, empty namespace) on
the SAME chain, runs the included root there — all outer scopes stay
visible — and on success pops the body's innermost scope and pushes `s0`
back, returning the root value; a body error propagates before the
restore. -/
theorem include_scope_swap (fuel : Nat) (ext : Externals) (path : List Char)
    (s0 s1 : ExecuteScopeBody) (outer : List ExecuteScopeBody)
    (chains : List (List ExecuteScopeBody)) (blk : Block)
    (hinc : ext.includer (s0.paths ++ [path]) = .ok blk) :
    (∀ v c4 ch4,
      executeWithoutScope fuel ext blk
          ⟨(⟨s1.paths ++ [parentPath path], []⟩ :: s1 :: outer) :: chains⟩
        = some (.ok v, ⟨c4 :: ch4⟩) →
      2 ≤ c4.length →
      includeProc fuel ext path ⟨(s0 :: s1 :: outer) :: chains⟩
        = some (.ok v, ⟨(s0 :: c4.tail) :: ch4⟩))
    ∧ ∀ e env4,
        executeWithoutScope fuel ext blk
            ⟨(⟨s1.paths ++ [parentPath path], []⟩ :: s1 :: outer) :: chains⟩
          = some (.error e, env4) →
        includeProc fuel ext path ⟨(s0 :: s1 :: outer) :: chains⟩
          = some (.error (.causedByBlockExec e), env4) := by
  constructor
  · intro v c4 ch4 hrun hlen
    simp only [includeProc, getLastScope, getLastScopes, List.head?, hinc,
      freeze_scope, List.length_cons, setLastScopes, new_scope, setLastScope,
      back_scope, reload_scope]
    rw [if_neg (by omega)]
    simp only [hrun, List.head?]
    rw [if_neg (by omega)]
  · intro e env4 hrun
    simp only [includeProc, getLastScope, getLastScopes, List.head?, hinc,
      freeze_scope, List.length_cons, setLastScopes, new_scope, setLastScope,
      back_scope, reload_scope]
    rw [if_neg (by omega)]
    simp only [hrun]

/-- Witness for `include_scope_swap`: the `outerVarEnv` scenario — the
body runs with the fresh scope over the outer `x = 42` scope, reads `x`,
and `include` returns `42` with the original chain restored. -/
theorem include_scope_swap_witness :
    includeProc 10 xIncluder "p".toList
        ⟨[[⟨[], []⟩, ⟨[], [("x".toList, .var (.int 42))]⟩]]⟩
      = some (.ok (.int 42),
          ⟨[[⟨[], []⟩, ⟨[], [("x".toList, .var (.int 42))]⟩]]⟩) := by
  have h := (include_scope_swap 10 xIncluder "p".toList ⟨[], []⟩
    ⟨[], [("x".toList, .var (.int 42))]⟩ [] [] (.mk "x".toList [] false) rfl).1
    (.int 42)
    [⟨[] ++ [parentPath "p".toList], []⟩, ⟨[], [("x".toList, .var (.int 42))]⟩] []
    (by simp [execute, executeWithoutScope, evalArgs, executeProcedure,
      executeProcedureWithBind, procWrap, bind_name, find_scope, getLastScopes,
      getLastScope, new_scope, back_scope, setLastScopes, nsGet, to_int, to_bool,
      expandedArgs, applyNative, parentPath, Block.quote, Block.proc_name, Block.args])
    (by decide)
  simpa using h

end Ev

namespace Ev

/-- The argument loop processes an appended list compositionally: run
the first part, then continue with its accumulated results (errors and
panics pass through). -/
theorem evalArgs_append (fuel : Nat) (ext : Externals) (parent : Block)
    (l1 l2 : List (Bool × Block)) :
    ∀ acc env,
      evalArgs (fuel + 1) ext parent (l1 ++ l2) acc env
        = match evalArgs (fuel + 1) ext parent l1 acc env with
          | Option.none => Option.none
          | some (.error e, env') => some (.error e, env')
          | some (.ok acc', env') => evalArgs (fuel + 1) ext parent l2 acc' env' := by
  induction l1 with
  | nil =>
    intro acc env
    have h0 : evalArgs (fuel + 1) ext parent [] acc env = some (.ok acc, env) := by
      simp [evalArgs]
    rw [List.nil_append, h0]
  | cons p l1 ih =>
    intro acc env
    obtain ⟨fl, c⟩ := p
    rw [List.cons_append]
    simp only [evalArgs]
    rcases hx : execute fuel ext c env with _ | ⟨r, envx⟩
    · rfl
    · rcases r with e | v
      · dsimp only
        rcases hcie : createInheriteError parent e acc with _ | be <;> rfl
      · dsimp only
        cases hcond : fl && !v.isList
        · simp only [Bool.false_eq_true, if_false]
          exact ih (acc ++ [v]) envx
        · rfl

/-- A successful argument loop returns one result per processed
argument. -/
theorem evalArgs_ok_length (fuel : Nat) (ext : Externals) (parent : Block) :
    ∀ (l : List (Bool × Block)) acc env rs env',
      evalArgs (fuel + 1) ext parent l acc env = some (.ok rs, env') →
      rs.length = acc.length + l.length := by
  intro l
  induction l with
  | nil =>
    intro acc env rs env' h
    simp only [evalArgs, Option.some.injEq, Prod.mk.injEq, Except.ok.injEq] at h
    rw [← h.1]
    simp
  | cons p l ih =>
    intro acc env rs env' h
    obtain ⟨fl, c⟩ := p
    simp only [evalArgs] at h
    rcases hx : execute fuel ext c env with _ | ⟨r, envx⟩ <;> rw [hx] at h
    · cases h
    · rcases r with e | v
      · dsimp only at h
        rcases hcie : createInheriteError parent e acc with _ | be <;> rw [hcie] at h
        · cases h
        · simp at h
      · dsimp only at h
        cases hcond : fl && !v.isList <;> rw [hcond] at h
        · simp only [Bool.false_eq_true, if_false] at h
          have := ih (acc ++ [v]) envx rs env' h
          simp only [List.length_append, List.length_cons, List.length_nil] at this ⊢
          omega
        · simp at h

/-- With one result per leading argument, the `Success` prefix of
`create_inherite_error` is the zip of those arguments with their
results. -/
theorem inheritChildren_eq_zip :
    ∀ (rs : List Literal) (done tail : List (Bool × Block)),
      rs.length = done.length →
      inheritChildren (done ++ tail) rs
        = some ((done.zip rs).map fun p =>
            BlockErrorTree.mk (.success p.2) p.1.1 [] p.1.2.proc_name) := by
  intro rs
  induction rs with
  | nil =>
    intro done tail hlen
    have hd : done = [] := List.eq_nil_of_length_eq_zero hlen.symm
    subst hd
    rw [List.nil_append]
    cases tail with
    | nil => rfl
    | cons a as =>
      obtain ⟨fl, c⟩ := a
      rfl
  | cons r rs ih =>
    intro done tail hlen
    cases done with
    | nil => simp at hlen
    | cons d done =>
      obtain ⟨fl, c⟩ := d
      rw [List.cons_append]
      show (match inheritChildren (done ++ tail) rs with
        | Option.none => Option.none
        | some ts => some (BlockErrorTree.mk (.success r) fl [] c.proc_name :: ts))
        = _
      rw [ih done tail (by simpa using hlen)]
      simp [List.zip_cons_cons]

/-- **C7** (amended): if the arguments before the failing child
evaluated to `rs` and child `c` fails with `err`, the block stops at
`c` — the result does not depend on the later siblings' bodies — and
errors with a tree whose children are the earlier arguments as `Success`
with their literals, then the failing child's tree, then one `Unreached`
node per later sibling, each node carrying its procedure name and its
expand flag — EXCEPT the failing child's node, whose `expand` is
overwritten with the LAST argument's flag (`self.args[self.args.len()-1].0`),
not its own. -/
theorem error_tree_on_child_failure
    (fuel : Nat) (ext : Externals) (env env1 env2 : ExecuteEnv) (f : List Char)
    (done : List (Bool × Block)) (flC : Bool) (c : Block) (rest : List (Bool × Block))
    (rs : List Literal) (err : BlockError) (lastFl : Bool) (lastB : Block)
    (hpre : evalArgs (fuel + 1) ext (.mk f (done ++ (flC, c) :: rest) false) done [] env
        = some (.ok rs, env1))
    (hfail : execute fuel ext c env1 = some (.error err, env2))
    (hlast : (done ++ (flC, c) :: rest).getLast? = some (lastFl, lastB)) :
    executeWithoutScope (fuel + 1) ext (.mk f (done ++ (flC, c) :: rest) false) env
      = some (.error (.mk
          (.mk .error false
            ((done.zip rs).map (fun p =>
                BlockErrorTree.mk (.success p.2) p.1.1 [] p.1.2.proc_name)
              ++ err.root.withExpand lastFl
              :: rest.map (fun p => BlockErrorTree.mk .unreached p.1 [] p.2.proc_name))
            f)
          err.caused_by err.msg), env2) := by
  have hlen := evalArgs_ok_length fuel ext (.mk f (done ++ (flC, c) :: rest) false)
    done [] env rs env1 hpre
  simp only [List.length_nil, Nat.zero_add] at hlen
  simp only [executeWithoutScope, Block.quote, Block.args, Block.proc_name,
    Bool.false_eq_true, if_false]
  rw [evalArgs_append, hpre]
  simp only [evalArgs]
  rw [hfail]
  dsimp only
  have hcie : createInheriteError (.mk f (done ++ (flC, c) :: rest) false) err rs
      = some (.mk (.mk .error false
          ((done.zip rs).map (fun p =>
              BlockErrorTree.mk (.success p.2) p.1.1 [] p.1.2.proc_name)
            ++ err.root.withExpand lastFl
            :: rest.map (fun p => BlockErrorTree.mk .unreached p.1 [] p.2.proc_name))
          f)
        err.caused_by err.msg) := by
    simp only [createInheriteError, Block.args, Block.proc_name, hlast]
    rw [inheritChildren_eq_zip rs done ((flC, c) :: rest) hlen]
    have hdrop : (done ++ (flC, c) :: rest).drop (rs.length + 1) = rest := by
      rw [hlen, show done ++ (flC, c) :: rest = (done ++ [(flC, c)]) ++ rest by simp,
        List.drop_left' (by simp)]
    rw [hdrop]
    rfl
  rw [hcie]
  rfl

/-- Counterexample to **C7** as claimed: in the block
`f(@oops(), 1)` the failing child `oops` is declared with expand flag
`true`, but its node in the error tree records `expand = false` — the
flag of the LAST argument — so the failing node does not carry its own
expand flag. -/
theorem error_tree_expand_flag_cx :
    executeWithoutScope 11 noExt
        (.mk "f".toList [(true, .mk "oops".toList [] false),
          (false, .mk "1".toList [] false)] false) baseEnv
      = some (.error (.mk
          (.mk .error false
            [.mk .error false [] "oops".toList,
             .mk .unreached false [] "1".toList]
            "f".toList)
          Option.none ("Undefined Proc Name oops".toList)),
          ⟨[[⟨[], []⟩, ⟨[], divListingNs⟩]]⟩)
    ∧ (Block.mk "f".toList [(true, .mk "oops".toList [] false),
        (false, .mk "1".toList [] false)] false).args.head?.map Prod.fst = some true
    ∧ (false : Bool) ≠ true := by
  refine ⟨?_, rfl, by decide⟩
  simp [execute, executeWithoutScope, evalArgs, executeProcedure,
    executeProcedureWithBind, procWrap, bind_name, find_scope, getLastScopes,
    getLastScope, new_scope, back_scope, setLastScopes, nsGet, to_int, to_bool,
    expandedArgs, baseEnv, divListingNs, noExt, applyNative, createInheriteError,
    inheritChildren, createError, createErrorChildren, undefinedMsg,
    BlockErrorTree.withExpand, BlockError.root, BlockError.caused_by, BlockError.msg,
    Block.quote, Block.proc_name, Block.args]

/-- Witness for `error_tree_on_child_failure`: in `f(1, @oops(), 2)` the
first argument succeeds with `1`, `oops` fails, `2` is unreached, and
the failing node records the last argument's flag `false`. -/
theorem error_tree_on_child_failure_witness :
    executeWithoutScope 11 noExt
        (.mk "f".toList ([(false, .mk "1".toList [] false)] ++
          (true, Block.mk "oops".toList [] false) ::
            [(false, .mk "2".toList [] false)]) false) baseEnv
      = some (.error (.mk
          (.mk .error false
            (([(false, Block.mk "1".toList [] false)].zip [Literal.int 1]).map
                (fun p => BlockErrorTree.mk (.success p.2) p.1.1 [] p.1.2.proc_name)
              ++ (BlockError.mk (.mk .error false [] "oops".toList) Option.none
                  ("Undefined Proc Name oops".toList)).root.withExpand false
              :: [(false, Block.mk "2".toList [] false)].map
                  (fun p => BlockErrorTree.mk .unreached p.1 [] p.2.proc_name))
            "f".toList)
          (BlockError.mk (.mk .error false [] "oops".toList) Option.none
            ("Undefined Proc Name oops".toList)).caused_by
          (BlockError.mk (.mk .error false [] "oops".toList) Option.none
            ("Undefined Proc Name oops".toList)).msg),
          ⟨[[⟨[], []⟩, ⟨[], divListingNs⟩]]⟩) :=
  error_tree_on_child_failure 10 noExt baseEnv baseEnv
    ⟨[[⟨[], []⟩, ⟨[], divListingNs⟩]]⟩ "f".toList
    [(false, .mk "1".toList [] false)] true (.mk "oops".toList [] false)
    [(false, .mk "2".toList [] false)] [.int 1]
    (.mk (.mk .error false [] "oops".toList) Option.none
      ("Undefined Proc Name oops".toList)) false (.mk "2".toList [] false)
    (by simp [execute, executeWithoutScope, evalArgs, executeProcedure,
      executeProcedureWithBind, procWrap, bind_name, find_scope, getLastScopes,
      getLastScope, new_scope, back_scope, setLastScopes, nsGet, to_int, to_bool,
      expandedArgs, baseEnv, divListingNs, noExt, applyNative, Block.quote,
      Block.proc_name, Block.args])
    (by simp [execute, executeWithoutScope, evalArgs, executeProcedure,
      executeProcedureWithBind, procWrap, bind_name, find_scope, getLastScopes,
      getLastScope, new_scope, back_scope, setLastScopes, nsGet, to_int, to_bool,
      expandedArgs, baseEnv, divListingNs, noExt, applyNative, createError,
      createErrorChildren, undefinedMsg, Block.quote, Block.proc_name, Block.args])
    rfl

end Ev

namespace Ev

/-- **C6.** Expand equivalence: if a child `g` evaluates to the list
`[x, y, z]` and children `a1 a2 a3` evaluate to `x`, `y`, `z` (each
leaving the environment unchanged, as pure children do), then
`f(@g)` and `f(a1, a2, a3)` both invoke `execute_procedure` with the
SAME argument vector `[x, y, z]` — both sides reduce to the same
wrapped call — and hence produce the same result whenever that call
succeeds; and a block whose expand child evaluates to a non-list `v`
fails with the `"@" needs the arg is a list literal` error before
`execute_procedure` is reached. -/
theorem expand_equivalence
    (fuel : Nat) (ext : Externals) (env : ExecuteEnv) (f : List Char)
    (g a1 a2 a3 w : Block) (x y z v : Literal)
    (hg : execute fuel ext g env = some (.ok (.list [x, y, z]), env))
    (h1 : execute fuel ext a1 env = some (.ok x, env))
    (h2 : execute fuel ext a2 env = some (.ok y, env))
    (h3 : execute fuel ext a3 env = some (.ok z, env))
    (hw : execute fuel ext w env = some (.ok v, env))
    (hv : v.isList = false) :
    (executeWithoutScope (fuel + 1) ext (.mk f [(true, g)] false) env
        = procWrap (.mk f [(true, g)] false) [.list [x, y, z]]
            (executeProcedure fuel ext f [x, y, z] env)
      ∧ executeWithoutScope (fuel + 1) ext
            (.mk f [(false, a1), (false, a2), (false, a3)] false) env
          = procWrap (.mk f [(false, a1), (false, a2), (false, a3)] false) [x, y, z]
              (executeProcedure fuel ext f [x, y, z] env))
    ∧ (∀ r env', executeProcedure fuel ext f [x, y, z] env = some (.ok r, env') →
        executeWithoutScope (fuel + 1) ext (.mk f [(true, g)] false) env
            = some (.ok r, env')
          ∧ executeWithoutScope (fuel + 1) ext
              (.mk f [(false, a1), (false, a2), (false, a3)] false) env
            = some (.ok r, env'))
    ∧ executeWithoutScope (fuel + 1) ext (.mk f [(true, w)] false) env
        = some (.error (createError (.mk f [(true, w)] false) Option.none
            (expandErrMsg v) []), env) := by
  have hA : executeWithoutScope (fuel + 1) ext (.mk f [(true, g)] false) env
      = procWrap (.mk f [(true, g)] false) [.list [x, y, z]]
          (executeProcedure fuel ext f [x, y, z] env) := by
    simp only [executeWithoutScope, Block.quote, Block.args, Block.proc_name,
      Bool.false_eq_true, if_false, evalArgs, hg, Literal.isList, Bool.not_true,
      Bool.and_false, expandedArgs, List.append_nil, List.nil_append,
      eq_self_iff_true, if_true]
  have hB : executeWithoutScope (fuel + 1) ext
        (.mk f [(false, a1), (false, a2), (false, a3)] false) env
      = procWrap (.mk f [(false, a1), (false, a2), (false, a3)] false) [x, y, z]
          (executeProcedure fuel ext f [x, y, z] env) := by
    simp only [executeWithoutScope, Block.quote, Block.args, Block.proc_name,
      Bool.false_eq_true, if_false, evalArgs, h1, h2, h3, Bool.false_and,
      expandedArgs, List.append_nil, List.nil_append, List.singleton_append,
      List.cons_append]
  refine ⟨⟨hA, hB⟩, ?_, ?_⟩
  · intro r env' hp
    rw [hA, hB, hp]
    exact ⟨rfl, rfl⟩
  · simp only [executeWithoutScope, Block.quote, Block.args, Block.proc_name,
      Bool.false_eq_true, if_false, evalArgs, hw, hv, Bool.not_false, Bool.and_true,
      eq_self_iff_true, if_true]

/-- Witness for `expand_equivalence`: `listing(@listing(1,2,3))` and
`listing(1,2,3)` both yield `[1, 2, 3]`, and `listing(@5)` fails with
the expand error. -/
theorem expand_equivalence_witness :
    executeWithoutScope 11 noExt
        (.mk "listing".toList
          [(true, .mk "listing".toList [(false, .mk "1".toList [] false),
            (false, .mk "2".toList [] false), (false, .mk "3".toList [] false)] false)]
          false) baseEnv
      = some (.ok (.list [.int 1, .int 2, .int 3]), baseEnv)
    ∧ executeWithoutScope 11 noExt
        (.mk "listing".toList [(false, .mk "1".toList [] false),
          (false, .mk "2".toList [] false), (false, .mk "3".toList [] false)] false)
        baseEnv
      = some (.ok (.list [.int 1, .int 2, .int 3]), baseEnv)
    ∧ executeWithoutScope 11 noExt
        (.mk "listing".toList [(true, .mk "5".toList [] false)] false) baseEnv
      = some (.error (createError
          (.mk "listing".toList [(true, .mk "5".toList [] false)] false)
          Option.none (expandErrMsg (.int 5)) []), baseEnv) := by
  have h := expand_equivalence 10 noExt baseEnv "listing".toList
    (.mk "listing".toList [(false, .mk "1".toList [] false),
      (false, .mk "2".toList [] false), (false, .mk "3".toList [] false)] false)
    (.mk "1".toList [] false) (.mk "2".toList [] false) (.mk "3".toList [] false)
    (.mk "5".toList [] false) (.int 1) (.int 2) (.int 3) (.int 5)
    (by simp [execute, executeWithoutScope, evalArgs, executeProcedure,
      executeProcedureWithBind, procWrap, bind_name, find_scope, getLastScopes,
      getLastScope, new_scope, back_scope, setLastScopes, nsGet, to_int, to_bool,
      expandedArgs, baseEnv, divListingNs, noExt, applyNative, Block.quote,
      Block.proc_name, Block.args])
    (by simp [execute, executeWithoutScope, evalArgs, executeProcedure,
      executeProcedureWithBind, procWrap, bind_name, find_scope, getLastScopes,
      getLastScope, new_scope, back_scope, setLastScopes, nsGet, to_int, to_bool,
      expandedArgs, baseEnv, divListingNs, noExt, applyNative, Block.quote,
      Block.proc_name, Block.args])
    (by simp [execute, executeWithoutScope, evalArgs, executeProcedure,
      executeProcedureWithBind, procWrap, bind_name, find_scope, getLastScopes,
      getLastScope, new_scope, back_scope, setLastScopes, nsGet, to_int, to_bool,
      expandedArgs, baseEnv, divListingNs, noExt, applyNative, Block.quote,
      Block.proc_name, Block.args])
    (by simp [execute, executeWithoutScope, evalArgs, executeProcedure,
      executeProcedureWithBind, procWrap, bind_name, find_scope, getLastScopes,
      getLastScope, new_scope, back_scope, setLastScopes, nsGet, to_int, to_bool,
      expandedArgs, baseEnv, divListingNs, noExt, applyNative, Block.quote,
      Block.proc_name, Block.args])
    (by simp [execute, executeWithoutScope, evalArgs, executeProcedure,
      executeProcedureWithBind, procWrap, bind_name, find_scope, getLastScopes,
      getLastScope, new_scope, back_scope, setLastScopes, nsGet, to_int, to_bool,
      expandedArgs, baseEnv, divListingNs, noExt, applyNative, Block.quote,
      Block.proc_name, Block.args])
    rfl
  obtain ⟨hok, hC⟩ := h.2.1 (.list [.int 1, .int 2, .int 3]) baseEnv
    (by simp [executeProcedure, executeProcedureWithBind, bind_name, find_scope,
      getLastScopes, nsGet, to_int, to_bool, baseEnv, divListingNs, applyNative])
  exact ⟨hok, hC, h.2.2⟩

end Ev
